import Mathlib

/-!
# Debug overlay console (src/debug.cpp, src/debug.h)

A shallow embedding of the console of the debug overlay: the bounded log
(`Console::AddLog`), command submission with its history
(`Console::ExecCommand`) and the text-edit callback that implements
tab-completion and history navigation (`Console::TextEditCallback`); and of
two pieces of the overlay itself: the titles of the bindings list
(`Debug::drawBindings`) and the property tree renderer (`Debug::drawPropNode`).

Conventions of the embedding.

* A C string is the list of its characters, the terminating NUL left out; a
  read at the offset of the terminator yields NUL (`cstrAt`).
* `ImVector<T>` is a `List T`; `int` values that can be negative are `Int`.
* The host player (`mpv_handle`) is an automaton whose state is the list of
  the commands it was handed so far.
* The text buffer of the input widget is owned by the toolkit; the callback
  edits it through the toolkit's `DeleteChars` / `InsertChars`, and an
  insertion that does not fit the 256 bytes of `InputBuf` is not made.
* What the tree renderer draws in one frame is a value of `Drawn`; the
  open/closed states the toolkit remembers between frames are an input.
-/

namespace Debug

/-! ## C strings and the toolkit's string helpers -/

/-- C string: the characters that precede the terminating NUL. -/
abbrev CStr := List Char

/-- The string terminator. -/
def NUL : Char := Char.ofNat 0

/-- Read of `s[i]` in the NUL-terminated memory image of `s`: a character of
the string, the terminator at offset `s.length`, and no value beyond it. -/
def cstrAt (s : CStr) (i : Nat) : Option Char := (s ++ [NUL])[i]?

/-- ImGui `ImToUpper`: `(c >= 'a' && c <= 'z') ? c &= ~32 : c`. -/
def ImToUpper (c : Char) : Char :=
  if 'a' ≤ c ∧ c ≤ 'z' then Char.ofNat (c.toNat - 32) else c

/-- C library `toupper` in the "C" locale (the locale the plugin runs in). -/
def toupper (c : Char) : Char :=
  if 'a' ≤ c ∧ c ≤ 'z' then Char.ofNat (c.toNat - 32) else c

/-- ImGui `ImStricmp`:
`while ((d = ImToUpper(*str2) - ImToUpper(*str1)) == 0 && *str1) { str1++; str2++; } return d;` -/
def ImStricmp : CStr → CStr → Int
  | [], str2 => ((ImToUpper (str2.headD NUL)).toNat : Int) - ((ImToUpper NUL).toNat : Int)
  | c1 :: str1, str2 =>
    let d : Int := ((ImToUpper (str2.headD NUL)).toNat : Int) - ((ImToUpper c1).toNat : Int)
    if d = 0 ∧ c1 ≠ NUL then ImStricmp str1 str2.tail else d

/-- ImGui `ImStrnicmp`:
`int d = 0; while (count > 0 && (d = ImToUpper(*str2) - ImToUpper(*str1)) == 0 && *str1)
{ str1++; str2++; count--; } return d;` -/
def ImStrnicmp : CStr → CStr → Nat → Int
  | _, _, 0 => 0
  | [], str2, _ + 1 =>
    ((ImToUpper (str2.headD NUL)).toNat : Int) - ((ImToUpper NUL).toNat : Int)
  | c1 :: str1, str2, count + 1 =>
    let d : Int := ((ImToUpper (str2.headD NUL)).toNat : Int) - ((ImToUpper c1).toNat : Int)
    if d = 0 ∧ c1 ≠ NUL then ImStrnicmp str1 str2.tail count else d

/-- The `vsnprintf(buf, 1024, ...)` of `AddLog`: the formatted text cut to the
1023 characters that fit `char buf[1024]`. -/
def vsnprintf_buf (formatted : CStr) : CStr := formatted.take 1023

/-- printf conversion `%3d` of a non-negative index: decimal digits, right
aligned in a field of width 3. -/
def fmt_3d (i : Nat) : CStr :=
  let digits := Nat.toDigits 10 i
  List.replicate (3 - digits.length) ' ' ++ digits

/-- fmt conversion `{:<32}` of a string: the text, left aligned, filled with
spaces on the right up to width 32 (a longer text is kept whole). -/
def fmt_left32 (s : CStr) : CStr := s ++ List.replicate (32 - s.length) ' '

/-! ## The host player -/

/-- Value returned by the host for a property (`mpv_node`), one constructor
per `mpv_format` tag that carries data; `other` is a node whose `format` is
any further value of the tag (`MPV_FORMAT_NODE` or a value outside the enum),
for which no member of the union is read. A `double` is given by its bits. -/
inductive mpv_node where
  | none
  | string (s : CStr)
  | osd_string (s : CStr)
  | flag (b : Bool)
  | int64 (i : Int)
  | double (bits : Nat)
  | node_array (values : List mpv_node)
  | node_map (entries : List (CStr × mpv_node))
  | byte_array (size : Nat)
  | other (format : Int)

/-- `node.u.list->values` of an array or map node. -/
def mpv_node.u_list_values : mpv_node → List mpv_node
  | .node_array vs => vs
  | .node_map es => es.map Prod.snd
  | _ => []

/-- `node.u.list->keys` zipped with `values` of a map node. -/
def mpv_node.u_list_entries : mpv_node → List (CStr × mpv_node)
  | .node_map es => es
  | _ => []

/-- `node.u.string` (the host hands a string where the code reads one). -/
def mpv_node.u_string : mpv_node → CStr
  | .string s => s
  | .osd_string s => s
  | _ => []

/-- `node.u.flag`. -/
def mpv_node.u_flag : mpv_node → Bool
  | .flag b => b
  | _ => false

/-- The host player behind `mpv_handle *mpv`: what it answers depends on the
commands it has executed so far, which are its state. -/
structure mpv_handle where
  /-- Result code of `mpv_command_string` for a command, given the earlier ones. -/
  command_result : List CStr → CStr → Int
  /-- `mpv_error_string`. -/
  error_string : Int → CStr
  /-- Node delivered by `mpv_get_property(mpv, name, MPV_FORMAT_NODE, ..)`. -/
  property : List CStr → CStr → mpv_node
  /-- Commands handed to `mpv_command_string` so far, oldest first. -/
  executed : List CStr

/-- `mpv_command_string(mpv, args)`: returns the error code and the host after
the call. -/
def mpv_command_string (mpv : mpv_handle) (args : CStr) : Int × mpv_handle :=
  (mpv.command_result mpv.executed args, { mpv with executed := mpv.executed ++ [args] })

/-- `mpv_get_property(mpv, name, MPV_FORMAT_NODE, &node)`. -/
def mpv_get_property (mpv : mpv_handle) (name : CStr) : mpv_node :=
  mpv.property mpv.executed name

/-- One argument of a command: `<name>` when optional, else `name`
(inner loop of `formatCommands`, lines 103-112). -/
def formatArg (arg : mpv_node) : CStr :=
  let st := arg.u_list_entries.foldl
    (fun (st : CStr × Bool) (kv : CStr × mpv_node) =>
      let name_ := if kv.1 = "name".toList then kv.2.u_string else st.1
      let optional_ := if kv.1 = "optional".toList then kv.2.u_flag else st.2
      (name_, optional_))
    ([], false)
  if st.2 then "<".toList ++ st.1 ++ ">".toList else st.1

/-- `formatCommands`: from the host's `command-list` node to the pairs
(name, argument signature); an item without a name is skipped. -/
def formatCommands (node : mpv_node) : List (CStr × CStr) :=
  node.u_list_values.filterMap fun item =>
    let st := item.u_list_entries.foldl
      (fun (st : Option CStr × List CStr × Bool) (kv : CStr × mpv_node) =>
        let name := if kv.1 = "name".toList then some kv.2.u_string else st.1
        let args := if kv.1 = "args".toList then st.2.1 ++ kv.2.u_list_values.map formatArg
                    else st.2.1
        let vararg := if kv.1 = "vararg".toList then kv.2.u_flag else st.2.2
        (name, args, vararg))
      (none, [], false)
    match st.1 with
    | none => none
    | some name =>
      let args_str :=
        if st.2.1.isEmpty then []
        else (" ".toList).intercalate st.2.1 ++ (if st.2.2 then " ...".toList else [])
      some (name, args_str)

/-! ## Console state and the log -/

/-- `Console::LogItem`. -/
structure LogItem where
  Str : CStr
  Lev : CStr
  deriving DecidableEq, Repr

/-- `Debug::Console` (the fields the console logic reads or writes). -/
structure Console where
  mpv : mpv_handle
  Items : List LogItem
  Commands : List CStr
  History : List CStr
  /-- -1: new line, 0..History.Size-1 browsing history. -/
  HistoryPos : Int
  ScrollToBottom : Bool
  CommandInited : Bool
  LogLevel : CStr
  LogLimit : Int

/-- `builtinCommands`. -/
def builtinCommands : List CStr := ["HELP".toList, "CLEAR".toList, "HISTORY".toList]

/-- `Console::Console(mpv)` with the member initialisers of debug.h. -/
def Console.new (mpv : mpv_handle) : Console :=
  { mpv := mpv, Items := [], Commands := [], History := [], HistoryPos := -1,
    ScrollToBottom := false, CommandInited := false, LogLevel := "status".toList,
    LogLimit := 5000 }

/-- `Console::init(level, limit)`. -/
def Console.init (self : Console) (level : CStr) (limit : Int) : Console :=
  { self with LogLevel := level, LogLimit := limit }

/-- `Console::initCommands(commands)`. -/
def Console.initCommands (self : Console) (commands : List (CStr × CStr)) : Console :=
  if self.CommandInited then self
  else { self with
    Commands := self.Commands ++ builtinCommands ++ commands.map Prod.fst,
    CommandInited := true }

/-- `Console::ClearLog`. -/
def Console.ClearLog (self : Console) : Console := { self with Items := [] }

/-- `Console::AddLog(level, fmt, ...)`; `formatted` is the expansion of the
format string. The entry is pushed and, when the log then holds more than
`LogLimit` entries, the oldest `Items.Size - LogLimit` are erased. The
definition follows the code for `0 ≤ LogLimit`; a negative `LogLimit` makes the
C code erase past the end of the vector, and the log is empty here then. -/
def Console.AddLog (self : Console) (level : CStr) (formatted : CStr) : Console :=
  let Items := self.Items ++ [{ Str := vsnprintf_buf formatted, Lev := level }]
  if (Items.length : Int) > self.LogLimit then
    let offset := (Items.length : Int) - self.LogLimit
    { self with Items := Items.drop offset.toNat }
  else
    { self with Items := Items }

/-- `Debug::Debug(mpv)`: a console initialised with level "v" and 500 lines. -/
def Debug_new (mpv : mpv_handle) : Console :=
  ((Console.new mpv).init "v".toList 500).initCommands
    (formatCommands (mpv_get_property mpv "command-list".toList))

/-! ## Command submission -/

/-- The de-duplication loop of `ExecCommand`:
`for (int i = History.Size - 1; i >= 0; i--) if (ImStricmp(History[i], command_line) == 0)
{ free(History[i]); History.erase(History.begin() + i); break; }`.
The numeric argument is `i + 1`, the number of entries still to be inspected. -/
def eraseHistoryLoop (command_line : CStr) (History : List CStr) : Nat → List CStr
  | 0 => History
  | i + 1 =>
    if ImStricmp (History.getD i []) command_line = 0 then History.eraseIdx i
    else eraseHistoryLoop command_line History i

/-- The `HISTORY` branch of `ExecCommand`:
`int first = History.Size - 10;
for (int i = first > 0 ? first : 0; i < History.Size; i++) AddLog("info", "%3d: %s\n", i, History[i]);` -/
def Console.printHistory (self : Console) : Console :=
  let first : Int := (self.History.length : Int) - 10
  let start : Nat := (if first > 0 then first else 0).toNat
  (List.range' start (self.History.length - start)).foldl
    (fun (con : Console) (i : Nat) =>
      con.AddLog "info".toList (fmt_3d i ++ ": ".toList ++ self.History.getD i [] ++ "\n".toList))
    self

/-- The `HELP` branch of `ExecCommand`. -/
def Console.printHelp (self : Console) : Console :=
  let self := self.AddLog "info".toList "Builtin Commands:".toList
  let self := builtinCommands.foldl
    (fun (con : Console) (cmd : CStr) => con.AddLog "info".toList ("- ".toList ++ cmd)) self
  let self := self.AddLog "info".toList "MPV Commands:".toList
  let node := mpv_get_property self.mpv "command-list".toList
  (formatCommands node).foldl
    (fun (con : Console) (cmd : CStr × CStr) =>
      con.AddLog "info".toList ("- ".toList ++ cmd.1 ++ " ".toList ++ cmd.2))
    self

/-- `Console::ExecCommand(command_line)`. -/
def Console.ExecCommand (self : Console) (command_line : CStr) : Console :=
  let self := self.AddLog "info".toList ("# ".toList ++ command_line ++ "\n".toList)
  let self := { self with HistoryPos := -1 }
  let self := { self with
    History := eraseHistoryLoop command_line self.History self.History.length ++ [command_line] }
  let self :=
    if ImStricmp command_line "CLEAR".toList = 0 then
      self.ClearLog
    else if ImStricmp command_line "HELP".toList = 0 then
      self.printHelp
    else if ImStricmp command_line "HISTORY".toList = 0 then
      self.printHistory
    else
      let r := mpv_command_string self.mpv command_line
      let self := { self with mpv := r.2 }
      if r.1 < 0 then self.AddLog "error".toList (self.mpv.error_string r.1)
      else self.AddLog "info".toList "[mpv] Success".toList
  { self with ScrollToBottom := true }

/-! ## The text-edit callback: completion and history navigation -/

/-- The event flags the input widget is created with (debug.cpp:441-442);
`Other` stands for any flag the switch has no case for. -/
inductive ImGuiInputTextFlags where
  | CallbackCompletion
  | CallbackHistory
  | Other
  deriving DecidableEq, Repr

/-- Key of a history event. -/
inductive ImGuiKey where
  | UpArrow
  | DownArrow
  | Other
  deriving DecidableEq, Repr

/-- `ImGuiInputTextCallbackData` (the fields the callback uses); `BufTextLen`
is the length of `Buf`. -/
structure ImGuiInputTextCallbackData where
  EventFlag : ImGuiInputTextFlags
  EventKey : ImGuiKey
  Buf : CStr
  CursorPos : Nat
  deriving DecidableEq, Repr

/-- `data->BufTextLen`. -/
def ImGuiInputTextCallbackData.BufTextLen (data : ImGuiInputTextCallbackData) : Nat :=
  data.Buf.length

/-- `IM_ARRAYSIZE(InputBuf)` for `char InputBuf[256]` (debug.h:52), the size the
input widget is created with (debug.cpp:444). -/
def InputBuf_size : Nat := 256

/-- `data->BufSize`: every callback comes from the one widget created on
`InputBuf` with `IM_ARRAYSIZE(InputBuf)`, without
`ImGuiInputTextFlags_CallbackResize` (debug.cpp:441-444). -/
def ImGuiInputTextCallbackData.BufSize (_data : ImGuiInputTextCallbackData) : Nat :=
  InputBuf_size

/-- ImGui `ImGuiInputTextCallbackData::DeleteChars(pos, bytes_count)`: removes
`bytes_count` characters at `pos` and pulls the cursor back accordingly. -/
def ImGuiInputTextCallbackData.DeleteChars (data : ImGuiInputTextCallbackData)
    (pos bytes_count : Nat) : ImGuiInputTextCallbackData :=
  { data with
    Buf := data.Buf.take pos ++ data.Buf.drop (pos + bytes_count),
    CursorPos :=
      if data.CursorPos ≥ pos + bytes_count then data.CursorPos - bytes_count
      else if data.CursorPos ≥ pos then pos
      else data.CursorPos }

/-- ImGui `ImGuiInputTextCallbackData::InsertChars(pos, new_text)`: on a widget
that cannot resize its buffer the call returns without a change when
`new_text_len + BufTextLen >= BufSize`; otherwise it splices the text in at
`pos` and advances a cursor at or behind `pos`. -/
def ImGuiInputTextCallbackData.InsertChars (data : ImGuiInputTextCallbackData)
    (pos : Nat) (new_text : CStr) : ImGuiInputTextCallbackData :=
  if new_text.length + data.BufTextLen ≥ data.BufSize then data
  else
    { data with
      Buf := data.Buf.take pos ++ new_text ++ data.Buf.drop pos,
      CursorPos :=
        if data.CursorPos ≥ pos then data.CursorPos + new_text.length else data.CursorPos }

/-- The word scan of the completion case:
`while (word_start > data->Buf) { const char c = word_start[-1];
if (c == ' ' || c == '\t' || c == ',' || c == ';') break; word_start--; }`.
Argument and result are offsets into `Buf`. -/
def scanWordStart (Buf : CStr) : Nat → Nat
  | 0 => 0
  | p + 1 =>
    let c := Buf.getD p NUL
    if c = ' ' ∨ c = Char.ofNat 9 ∨ c = ',' ∨ c = ';' then p + 1
    else scanWordStart Buf p

/-- Candidate collection:
`for (int i = 0; i < Commands.Size; i++)
if (ImStrnicmp(Commands[i], word_start, (int)(word_end - word_start)) == 0)
candidates.push_back(Commands[i]);` -/
def collectCandidates (Commands : List CStr) (Buf : CStr) (word_start word_end : Nat) :
    List CStr :=
  Commands.filter fun cmd => ImStrnicmp cmd (Buf.drop word_start) (word_end - word_start) = 0

/-- The inner `for` of the longest-common-prefix loop, from index `i` on
(`first` tells whether `i == 0`); the result is `all_candidates_matches`, or
`none` when a candidate is read beyond its terminator.
`if (i == 0) c = std::toupper(candidates[i][match_len]);
else if (c == 0 || c != std::toupper(candidates[i][match_len])) all_candidates_matches = false;` -/
def allCandidatesMatch (match_len : Nat) : List CStr → Bool → Char → Option Bool
  | [], _, _ => some true
  | cand :: rest, true, _ =>
    match cstrAt cand match_len with
    | none => none
    | some ch => allCandidatesMatch match_len rest false (toupper ch)
  | cand :: rest, false, c =>
    if c = NUL then some false
    else
      match cstrAt cand match_len with
      | none => none
      | some ch => if c ≠ toupper ch then some false else allCandidatesMatch match_len rest false c

/-- The unbounded `for (;;)` that grows `match_len`; `fuel` bounds the number
of iterations, `none` means the fuel ran out or a read left a candidate. -/
def matchLenLoop (candidates : List CStr) : Nat → Nat → Option Nat
  | 0, _ => none
  | fuel + 1, match_len =>
    match allCandidatesMatch match_len candidates true NUL with
    | none => none
    | some false => some match_len
    | some true => matchLenLoop candidates fuel (match_len + 1)

/-- The listing loop of the completion case, from index `i` on with the line
`s` accumulated so far; returns the console and the unflushed rest of `s`.
`s += fmt::format("{:<32}", candidates[i]);
if (i != 0 && (i + 1) % 3 == 0) { AddLog("info", "%s\n", s.c_str()); s.clear(); }` -/
def listCandidatesLoop : List CStr → Nat → CStr → Console → Console × CStr
  | [], _, s, con => (con, s)
  | cand :: rest, i, s, con =>
    let s := s ++ fmt_left32 cand
    if i ≠ 0 ∧ (i + 1) % 3 = 0 then
      listCandidatesLoop rest (i + 1) [] (con.AddLog "info".toList (s ++ "\n".toList))
    else
      listCandidatesLoop rest (i + 1) s con

/-- The flush behind the listing loop (debug.cpp:559):
`if (!s.empty()) AddLog("info", "%s\n", s.c_str());`. -/
def flushListing (r : Console × CStr) : Console :=
  if r.2 ≠ [] then r.1.AddLog "info".toList (r.2 ++ "\n".toList) else r.1

/-- The candidate listing (debug.cpp:550-559): the header, the loop and the
flush of an unfinished line. -/
def Console.listCandidates (self : Console) (candidates : List CStr) : Console :=
  let self := self.AddLog "info".toList "Possible matches:\n".toList
  flushListing (listCandidatesLoop candidates 0 [] self)

/-- The completion case of `TextEditCallback` (debug.cpp:511-563). `fuel`
bounds the `for (;;)`; the result is `none` when the fuel runs out or a read
leaves a candidate. -/
def Console.completionEvent (fuel : Nat) (self : Console) (data : ImGuiInputTextCallbackData) :
    Option (Console × ImGuiInputTextCallbackData) :=
  let word_end := data.CursorPos
  let word_start := scanWordStart data.Buf word_end
  let candidates := collectCandidates self.Commands data.Buf word_start word_end
  match candidates with
  | [] =>
    some (self.AddLog "info".toList
      ("No match for ".toList ++ [Char.ofNat 34]
        ++ (data.Buf.drop word_start).take (word_end - word_start)
        ++ [Char.ofNat 34] ++ "!\n".toList), data)
  | [cand] =>
    let data := data.DeleteChars word_start (word_end - word_start)
    let data := data.InsertChars data.CursorPos cand
    let data := data.InsertChars data.CursorPos " ".toList
    some (self, data)
  | cand0 :: _ :: _ =>
    match matchLenLoop candidates fuel (word_end - word_start) with
    | none => none
    | some match_len =>
      let data :=
        if match_len > 0 then
          let data := data.DeleteChars word_start (word_end - word_start)
          data.InsertChars data.CursorPos (cand0.take match_len)
        else data
      some (self.listCandidates candidates, data)

/-- The cursor move of the history case (debug.cpp:566-574):
`if (EventKey == UpArrow) { if (HistoryPos == -1) HistoryPos = History.Size - 1;
else if (HistoryPos > 0) HistoryPos--; }
else if (EventKey == DownArrow) { if (HistoryPos != -1) if (++HistoryPos >= History.Size)
HistoryPos = -1; }` -/
def nextHistoryPos (EventKey : ImGuiKey) (HistoryPos : Int) (Size : Nat) : Int :=
  match EventKey with
  | .UpArrow =>
    if HistoryPos = -1 then (Size : Int) - 1
    else if HistoryPos > 0 then HistoryPos - 1
    else HistoryPos
  | .DownArrow =>
    if HistoryPos ≠ -1 then
      (if HistoryPos + 1 ≥ (Size : Int) then -1 else HistoryPos + 1)
    else HistoryPos
  | .Other => HistoryPos

/-- The history case of `TextEditCallback` (debug.cpp:564-581); `none` when
`History[HistoryPos]` is read outside the vector. -/
def Console.historyEvent (self : Console) (data : ImGuiInputTextCallbackData) :
    Option (Console × ImGuiInputTextCallbackData) :=
  let prev_history_pos := self.HistoryPos
  let self := { self with
    HistoryPos := nextHistoryPos data.EventKey self.HistoryPos self.History.length }
  if prev_history_pos ≠ self.HistoryPos then
    let history_str : Option CStr :=
      if self.HistoryPos ≥ 0 then self.History[self.HistoryPos.toNat]? else some []
    match history_str with
    | none => none
    | some str =>
      let data := data.DeleteChars 0 data.BufTextLen
      some (self, data.InsertChars 0 str)
  else some (self, data)

/-- `Console::TextEditCallback(data)`: the switch on `data->EventFlag`. The
callback's return value is the constant 0 and is left out. -/
def Console.TextEditCallback (fuel : Nat) (self : Console) (data : ImGuiInputTextCallbackData) :
    Option (Console × ImGuiInputTextCallbackData) :=
  match data.EventFlag with
  | .CallbackCompletion => self.completionEvent fuel data
  | .CallbackHistory => self.historyEvent data
  | .Other => some (self, data)

/-! ## Reachable console states -/

/-- Console states the overlay can be in: it starts from the constructor and
then log messages arrive, the log is cleared, the level or line limit is set,
the command list is seeded, lines are submitted and the input widget raises
completion and history events, in any order. A submitted line is the content
of `InputBuf` (debug.cpp:450-452), so it is shorter than `InputBuf_size`. -/
inductive Reachable : Console → Prop where
  | start (mpv : mpv_handle) : Reachable (Console.new mpv)
  | addLog (con : Console) (level text : CStr) : Reachable con → Reachable (con.AddLog level text)
  | clearLog (con : Console) : Reachable con → Reachable con.ClearLog
  | init (con : Console) (level : CStr) (limit : Int) :
      Reachable con → Reachable (con.init level limit)
  | initCommands (con : Console) (commands : List (CStr × CStr)) :
      Reachable con → Reachable (con.initCommands commands)
  | submit (con : Console) (command_line : CStr) :
      command_line.length < InputBuf_size → Reachable con →
      Reachable (con.ExecCommand command_line)
  | textEdit (con con2 : Console) (fuel : Nat) (data data2 : ImGuiInputTextCallbackData) :
      Reachable con → con.TextEditCallback fuel data = some (con2, data2) → Reachable con2

/-! ## The bindings list -/

/-- `Debug::Binding`. -/
structure Binding where
  section_ : CStr
  key : CStr
  cmd : CStr
  comment : CStr
  priority : Int
  weak : Bool

/-- The title of a row of `drawBindings` (debug.cpp:69-72):
`std::string title = binding.comment; if (title.empty()) title = binding.cmd;
title = title.substr(0, 50); if (title.size() == 50) title += "...";` -/
def drawBindings_title (binding : Binding) : CStr :=
  let title := binding.comment
  let title := if title.isEmpty then binding.cmd else title
  let title := title.take 50
  if title.length = 50 then title ++ "...".toList else title

/-! ## The property tree renderer -/

/-- The two style colours `drawSimple` writes a value in. -/
inductive ImGuiCol where
  | CheckMark
  | TextDisabled
  deriving DecidableEq, Repr

/-- fmt conversion `{}` of an `int64_t`: the decimal numeral, with a minus sign
when negative. -/
def fmt_int64 (i : Int) : CStr :=
  if i < 0 then '-' :: Nat.toDigits 10 i.natAbs else Nat.toDigits 10 i.toNat

/-- The value text and its colour computed by the `drawSimple` lambda of
`drawPropNode` (debug.cpp:255-283). `fmt_double` is the fmt library's `{}`
conversion of a double, taken as given. -/
def drawSimple_value (fmt_double : Nat → CStr) : mpv_node → CStr × ImGuiCol
  | .none => ("<Empty>".toList, .TextDisabled)
  | .osd_string s => (s, .CheckMark)
  | .string s => (s, .CheckMark)
  | .flag b => (if b then "yes".toList else "no".toList, .CheckMark)
  | .int64 i => (fmt_int64 i, .CheckMark)
  | .double bits => (fmt_double bits, .CheckMark)
  | .byte_array size =>
    ("byte array [".toList ++ Nat.toDigits 10 size ++ "]".toList, .CheckMark)
  | _ => ("<Unavailable>".toList, .TextDisabled)

/-- What one call of `drawPropNode` puts on the screen: a tree node with its
label, whether `SetNextItemOpen(true, ImGuiCond_Once)` preceded it, whether it
is open, and the rows drawn inside it when it is; or one row of `drawSimple`
with title, value text and colour. -/
inductive Drawn where
  | treeNode (label : CStr) (nextItemOpen : Bool) (is_open : Bool) (children : List Drawn)
  | simple (title : CStr) (value : CStr) (color : ImGuiCol)

/-- The open/closed states the toolkit remembers between frames: for the tree
node reached through the given labels, the state the user left it in, or
`none` for a node that has not been drawn before. -/
abbrev ImGuiStorage := List CStr → Option Bool

/-- ImGui `TreeNode(label)` under `path`: a remembered state wins; a node drawn
for the first time is open exactly when `SetNextItemOpen(true, ImGuiCond_Once)`
preceded it. -/
def TreeNode (storage : ImGuiStorage) (path : List CStr) (label : CStr)
    (nextItemOpen : Bool) : Bool :=
  match storage (path ++ [label]) with
  | some is_open => is_open
  | none => nextItemOpen

mutual
/-- `Debug::drawPropNode(name, node, depth)` (debug.cpp:302-320). -/
def drawPropNode (fmt_double : Nat → CStr) (storage : ImGuiStorage) (path : List CStr)
    (name : CStr) : mpv_node → Nat → Drawn
  | .node_array values, depth =>
    let label := name ++ " [".toList ++ Nat.toDigits 10 values.length ++ "]".toList
    let is_open := TreeNode storage path label false
    .treeNode label false is_open
      (if is_open then
        drawArrayItems fmt_double storage (path ++ [label]) values 0 (depth + 1)
       else [])
  | .node_map entries, depth =>
    let label := name ++ " (".toList ++ Nat.toDigits 10 entries.length ++ ")".toList
    let nextItemOpen := decide (depth > 0)
    let is_open := TreeNode storage path label nextItemOpen
    .treeNode label nextItemOpen is_open
      (if is_open then drawMapItems fmt_double storage (path ++ [label]) entries else [])
  | node, _ =>
    .simple name (drawSimple_value fmt_double node).1 (drawSimple_value fmt_double node).2
/-- The loop of the array case, from index `i` on:
`drawPropNode(fmt::format("#{}", i).c_str(), node.u.list->values[i], depth + 1)`;
`depth` is the value handed to the elements. -/
def drawArrayItems (fmt_double : Nat → CStr) (storage : ImGuiStorage) (path : List CStr) :
    List mpv_node → Nat → Nat → List Drawn
  | [], _, _ => []
  | value :: values, i, depth =>
    drawPropNode fmt_double storage path ("#".toList ++ Nat.toDigits 10 i) value depth
      :: drawArrayItems fmt_double storage path values (i + 1) depth
/-- The loop of the map case:
`drawPropNode(node.u.list->keys[i], node.u.list->values[i])`, the depth
argument left to its default 0 (debug.h:79). -/
def drawMapItems (fmt_double : Nat → CStr) (storage : ImGuiStorage) (path : List CStr) :
    List (CStr × mpv_node) → List Drawn
  | [] => []
  | (key, value) :: entries =>
    drawPropNode fmt_double storage path key value 0
      :: drawMapItems fmt_double storage path entries
end

/-- The top-level call of `drawProperties`: `drawPropNode(name.c_str(), prop)`. -/
def drawProperty (fmt_double : Nat → CStr) (storage : ImGuiStorage) (name : CStr)
    (prop : mpv_node) : Drawn :=
  drawPropNode fmt_double storage [] name prop 0

/-! ## Notions used to state the properties -/

/-- The last `limit` entries of a log (all of them when there are fewer). -/
def logTail (limit : Int) (l : List LogItem) : List LogItem :=
  l.drop ((l.length : Int) - limit).toNat

/-- Upper-cased content of a C string (a list is read up to its first NUL,
which for a C string is the whole list). -/
def ciKey (s : CStr) : List Char := (s.takeWhile (fun c => c ≠ NUL)).map ImToUpper

/-- Case-insensitive equality of two lines: the same characters up to the case
of the letters `a`-`z`. -/
abbrev ciEqual (a b : CStr) : Prop := ciKey a = ciKey b

/-- Two console states that differ at most in the log. -/
def SameButLog (a b : Console) : Prop := a = { b with Items := a.Items }

/-- A sample host: it rejects the command `bad` with error -4 and accepts every
other command; it reports no commands of its own. -/
def exampleHost : mpv_handle :=
  { command_result := fun _ cmd => if cmd = "bad".toList then -4 else 0,
    error_string := fun err => if err = -4 then "invalid parameter".toList else "success".toList,
    property := fun _ _ => .node_array [],
    executed := [] }

/-- An Up or Down key press in the input widget: the history event raised on
the current console and buffer. -/
def pressKey (key : ImGuiKey) (st : Console × ImGuiInputTextCallbackData) :
    Option (Console × ImGuiInputTextCallbackData) :=
  st.1.TextEditCallback 0 { st.2 with EventFlag := .CallbackHistory, EventKey := key }

/-- What the user sees after an event: the history cursor and the buffer. -/
def view (r : Option (Console × ImGuiInputTextCallbackData)) : Option (Int × CStr) :=
  r.map fun st => (st.1.HistoryPos, st.2.Buf)

/-- The console after the lines `a`, `b`, `c` were submitted in this order,
with an empty input buffer. -/
def abc : Console × ImGuiInputTextCallbackData :=
  ((((Console.new exampleHost).ExecCommand "a".toList).ExecCommand "b".toList).ExecCommand
      "c".toList,
   { EventFlag := .CallbackHistory, EventKey := .Other, Buf := [], CursorPos := 0 })

/-- The console after the given lines were submitted one after the other. -/
def submitAll (con : Console) (lines : List CStr) : Console :=
  lines.foldl Console.ExecCommand con

/-- The line that the `HISTORY` command prints for entry `i` of a history. -/
def historyLine (History : List CStr) (i : Nat) : LogItem :=
  { Str := vsnprintf_buf (fmt_3d i ++ ": ".toList ++ History.getD i [] ++ "\n".toList),
    Lev := "info".toList }

/-- The characters that end a word in the input line: space, tab, comma and
semicolon. -/
abbrev isDelimiter (c : Char) : Prop := c = ' ' ∨ c = Char.ofNat 9 ∨ c = ',' ∨ c = ';'

/-- Case-insensitive "starts with": `word` is no longer than `cmd` and equals
the beginning of `cmd` up to the case of the letters `a`-`z`. -/
abbrev ciStartsWith (word cmd : CStr) : Prop :=
  word.length ≤ cmd.length ∧ (cmd.take word.length).map toupper = word.map toupper

/-- The first `n` characters are common to all candidates, case-insensitively:
every candidate has `n` characters and any two agree on them up to case. -/
def CommonUpTo (candidates : List CStr) (n : Nat) : Prop :=
  ∀ c ∈ candidates, ∀ d ∈ candidates,
    n ≤ c.length ∧ (c.take n).map toupper = (d.take n).map toupper

/-- The length `n` of the longest common case-insensitive beginning of the
candidates: `n` characters are common and `n + 1` are not. -/
def LongestCommonLen (candidates : List CStr) (n : Nat) : Prop :=
  CommonUpTo candidates n ∧ ¬ CommonUpTo candidates (n + 1)

/-- A sample command list of the host, as (name, argument signature). -/
def sampleCommands : List (CStr × CStr) :=
  [("mute".toList, []), ("mute-all".toList, []), ("set".toList, "name value".toList),
   ("seek".toList, "target <flags>".toList), ("select".toList, []), ("quit".toList, "<code>".toList)]

/-- The console as `Debug::Debug` sets it up (level "v", 500 lines) with the
built-in commands and the sample commands known for completion. -/
def sampleConsole : Console :=
  ((Console.new exampleHost).init "v".toList 500).initCommands sampleCommands

/-- A completion event (Tab) with the given buffer and cursor position. -/
def tabAt (Buf : CStr) (CursorPos : Nat) : ImGuiInputTextCallbackData :=
  { EventFlag := .CallbackCompletion, EventKey := .Other, Buf := Buf, CursorPos := CursorPos }

/-- The candidates cut into lines of three, the last line taking what is left. -/
def groupsOf3 : List CStr → List (List CStr)
  | a :: b :: c :: rest => [a, b, c] :: groupsOf3 rest
  | [] => []
  | [a] => [[a]]
  | [a, b] => [[a, b]]

/-- The log entry for one line of the candidate listing: every name followed
by spaces up to 32 columns, then a newline. -/
def listingLine (g : List CStr) : LogItem :=
  { Str := vsnprintf_buf
      ((g.map fun c => c ++ List.replicate (32 - c.length) ' ').flatten ++ "\n".toList),
    Lev := "info".toList }

/-- A name padded on the left with spaces to 32 columns, the reading of
"left-padded" that C10 is compared with. -/
def leftPad32 (s : CStr) : CStr := List.replicate (32 - s.length) ' ' ++ s

/-- A console that knows two commands with names of 36 characters. -/
def longNamesConsole : Console :=
  ((Console.new exampleHost).init "v".toList 500).initCommands
    [("script-message-to-everyone-at-once-1".toList, []),
     ("script-message-to-everyone-at-once-2".toList, [])]

/-- The toolkit's memory when the user has opened exactly the tree nodes
reached through the listed label paths and touched nothing else. -/
def openedAt (paths : List (List CStr)) : ImGuiStorage :=
  fun path => if path ∈ paths then some true else none

/-- The toolkit's memory before anything was drawn. -/
def freshStorage : ImGuiStorage := fun _ => none

/-- A sample rendering of doubles (the renderer's text for a double is not
looked at by the properties below). -/
def sampleFmtDouble : Nat → CStr := fun _ => "0".toList

/-- A binding without comment, for the given command text. -/
def bindingOfCmd (cmd : CStr) : Binding :=
  { section_ := "default".toList, key := "x".toList, cmd := cmd, comment := [],
    priority := 0, weak := false }

/-- A binding with the given comment and command text. -/
def bindingOfComment (comment cmd : CStr) : Binding :=
  { section_ := "default".toList, key := "x".toList, cmd := cmd, comment := comment,
    priority := 0, weak := false }

/-! # Properties -/

/-! ## The bounded log -/

theorem AddLog_Items (con : Console) (level text : CStr) :
    (con.AddLog level text).Items
      = logTail con.LogLimit (con.Items ++ [{ Str := vsnprintf_buf text, Lev := level }]) := by
  unfold Console.AddLog logTail
  simp only []
  split
  · rfl
  · rename_i h
    have : ((↑(con.Items ++ [{ Str := vsnprintf_buf text, Lev := level : LogItem }]).length : Int) - con.LogLimit).toNat = 0 := by
      omega
    rw [this]; rfl

theorem logTail_ofNat (n : Nat) (l : List LogItem) :
    logTail (n : Int) l = l.drop (l.length - n) := by
  unfold logTail
  congr 1
  omega

theorem logTail_neg (limit : Int) (h : limit < 0) (l : List LogItem) : logTail limit l = [] := by
  unfold logTail
  apply List.drop_of_length_le
  omega

theorem logTail_length (limit : Int) (l : List LogItem) (h : 0 ≤ limit) :
    ((logTail limit l).length : Int) ≤ limit := by
  unfold logTail
  rw [List.length_drop]
  omega

theorem drop_tail_append {α : Type} (n : Nat) (xs ys : List α) :
    (xs.drop (xs.length - n) ++ ys).drop ((xs.drop (xs.length - n) ++ ys).length - n)
      = (xs ++ ys).drop ((xs ++ ys).length - n) := by
  by_cases h : xs.length ≤ n
  · have : xs.length - n = 0 := by omega
    rw [this, List.drop_zero]
  · have e1 : (xs.drop (xs.length - n) ++ ys).length - n = ys.length := by
      rw [List.length_append, List.length_drop]; omega
    have e2 : (xs ++ ys).length - n = (xs.length - n) + ys.length := by
      rw [List.length_append]; omega
    have e3 : (xs ++ ys).drop (xs.length - n) = xs.drop (xs.length - n) ++ ys :=
      List.drop_append_of_le_length (by omega)
    rw [e1, e2, ← List.drop_drop, e3]

theorem logTail_append_logTail (limit : Int) (xs ys : List LogItem) :
    logTail limit (logTail limit xs ++ ys) = logTail limit (xs ++ ys) := by
  by_cases hl : 0 ≤ limit
  · obtain ⟨n, rfl⟩ := Int.eq_ofNat_of_zero_le hl
    simp only [logTail_ofNat]
    exact drop_tail_append n xs ys
  · rw [logTail_neg limit (by omega), logTail_neg limit (by omega)]

theorem AddLog_eq (con : Console) (level text : CStr) :
    con.AddLog level text
      = { con with
          Items := logTail con.LogLimit
            (con.Items ++ [{ Str := vsnprintf_buf text, Lev := level }]) } := by
  have h := AddLog_Items con level text
  unfold Console.AddLog at h ⊢
  simp only [] at h ⊢
  split
  · rw [if_pos (by assumption)] at h
    simp only [] at h
    rw [← h]
  · rw [if_neg (by assumption)] at h
    simp only [] at h
    rw [← h]

theorem foldl_AddLog_eq {α : Type} (lev txt : α → CStr) (xs : List α) (con : Console) :
    xs.foldl (fun (c : Console) (x : α) => c.AddLog (lev x) (txt x)) con
      = { con with
          Items :=
            if xs.isEmpty then con.Items
            else logTail con.LogLimit
              (con.Items ++ xs.map fun x => { Str := vsnprintf_buf (txt x), Lev := lev x }) } := by
  induction xs generalizing con with
  | nil => simp
  | cons x rest ih =>
    rw [List.foldl_cons, ih, AddLog_eq]
    cases rest with
    | nil => simp
    | cons y rest2 =>
      simp only [List.isEmpty_cons, Bool.false_eq_true, if_false, List.map_cons]
      rw [logTail_append_logTail, List.append_assoc]
      rfl

theorem foldl_AddLog_from_empty (con : Console) (capacity : Nat) (l : List (CStr × CStr)) :
    (l.foldl (fun (c : Console) (call : CStr × CStr) => c.AddLog call.1 call.2)
        { con with Items := [], LogLimit := (capacity : Int) }).Items
      = (l.map fun call => ({ Str := vsnprintf_buf call.2, Lev := call.1 } : LogItem)).drop
          ((l.map fun call => ({ Str := vsnprintf_buf call.2, Lev := call.1 } : LogItem)).length
            - capacity) := by
  rw [foldl_AddLog_eq (fun call : CStr × CStr => call.1) (fun call => call.2)]
  cases l with
  | nil => simp
  | cons c cs =>
    simp only [List.isEmpty_cons, Bool.false_eq_true, if_false, logTail_ofNat, List.nil_append]

/-- C1: for every capacity and every sequence of `AddLog` calls made on an empty
log, after each call (after the first `k` calls, for every `k`) the log holds at
most `capacity` entries, and they are exactly the last `capacity` entries of
everything appended so far, in append order (an entry being the text as cut by
the formatter together with its level). -/
theorem C1_AddLog_keeps_most_recent (con : Console) (capacity : Nat)
    (calls : List (CStr × CStr)) (k : Nat) :
    let appended : List LogItem :=
      (calls.take k).map fun call => { Str := vsnprintf_buf call.2, Lev := call.1 }
    let after : Console :=
      (calls.take k).foldl (fun (c : Console) (call : CStr × CStr) => c.AddLog call.1 call.2)
        { con with Items := [], LogLimit := (capacity : Int) }
    after.Items.length ≤ capacity
      ∧ after.Items = appended.drop (appended.length - capacity) := by
  intro appended after
  have h : after.Items = appended.drop (appended.length - capacity) :=
    foldl_AddLog_from_empty con capacity (calls.take k)
  refine ⟨?_, h⟩
  rw [h, List.length_drop]
  omega

/-! ## Case-insensitive comparison -/

theorem Char_toNat_injective {a b : Char} (h : a.toNat = b.toNat) : a = b := by
  rw [← Char.ofNat_toNat a, ← Char.ofNat_toNat b, h]

theorem Char_sub_eq_zero {a b : Char} : ((a.toNat : Int) - (b.toNat : Int) = 0) ↔ a = b := by
  constructor
  · intro h
    apply Char_toNat_injective
    omega
  · rintro rfl
    omega

theorem lower_range (c : Char) (h : 'a' ≤ c ∧ c ≤ 'z') : 97 ≤ c.toNat ∧ c.toNat ≤ 122 := by
  obtain ⟨h1, h2⟩ := h
  rw [Char.le_def] at h1 h2
  have h1' : ('a' : Char).val.toNat ≤ c.val.toNat := h1
  have h2' : c.val.toNat ≤ ('z' : Char).val.toNat := h2
  exact ⟨h1', h2'⟩

theorem ImToUpper_eq_NUL {c : Char} : ImToUpper c = NUL ↔ c = NUL := by
  unfold ImToUpper
  split
  · rename_i h
    have hr := lower_range c h
    constructor
    · intro h0
      exfalso
      generalize hn : c.toNat = n at hr h0
      obtain ⟨h1, h2⟩ := hr
      interval_cases n <;> simp [NUL] at h0
    · rintro rfl
      exfalso
      have : NUL.toNat = 0 := by decide
      omega
  · rfl


theorem ciKey_nil : ciKey [] = [] := rfl

theorem ciKey_cons_NUL (s : CStr) : ciKey (NUL :: s) = [] := by
  simp [ciKey, List.takeWhile]

theorem ciKey_cons (c : Char) (s : CStr) (h : c ≠ NUL) :
    ciKey (c :: s) = ImToUpper c :: ciKey s := by
  simp [ciKey, List.takeWhile, h]

theorem ciKey_eq_nil_iff (s : CStr) : ciKey s = [] ↔ s.headD NUL = NUL := by
  cases s with
  | nil => simp [ciKey]
  | cons c t =>
    by_cases h : c = NUL
    · subst h; simp [ciKey_cons_NUL]
    · simp [ciKey_cons c t h, h]

theorem ImStricmp_eq_zero_iff (a b : CStr) : ImStricmp a b = 0 ↔ ciKey a = ciKey b := by
  induction a generalizing b with
  | nil =>
    rw [ImStricmp, Char_sub_eq_zero, ciKey_nil, eq_comm (a := ([] : List Char)),
      ciKey_eq_nil_iff]
    rw [show ImToUpper NUL = NUL from ImToUpper_eq_NUL.mpr rfl, ImToUpper_eq_NUL]
  | cons c1 s1 ih =>
    rw [ImStricmp]
    by_cases h1 : c1 = NUL
    · subst h1
      rw [if_neg (by simp), Char_sub_eq_zero, ciKey_cons_NUL, eq_comm (a := ([] : List Char)),
        ciKey_eq_nil_iff]
      rw [show ImToUpper NUL = NUL from ImToUpper_eq_NUL.mpr rfl, ImToUpper_eq_NUL]
    · rw [ciKey_cons c1 s1 h1]
      by_cases hd : ((ImToUpper (b.headD NUL)).toNat : Int) - ((ImToUpper c1).toNat : Int) = 0
      · rw [if_pos ⟨hd, h1⟩]
        have hup := Char_sub_eq_zero.mp hd
        cases b with
        | nil =>
          exfalso
          simp only [List.headD_nil] at hup
          rw [show ImToUpper NUL = NUL from ImToUpper_eq_NUL.mpr rfl] at hup
          exact h1 (ImToUpper_eq_NUL.mp hup.symm)
        | cons c2 s2 =>
          simp only [List.headD_cons] at hup
          have h2 : c2 ≠ NUL := by
            intro h
            subst h
            rw [show ImToUpper NUL = NUL from ImToUpper_eq_NUL.mpr rfl] at hup
            exact h1 (ImToUpper_eq_NUL.mp hup.symm)
          rw [List.tail_cons, ih, ciKey_cons c2 s2 h2, hup]
          simp
      · rw [if_neg (fun h => hd h.1)]
        refine iff_of_false hd ?_
        intro hk
        apply hd
        rw [Char_sub_eq_zero]
        cases b with
        | nil => simp [ciKey_nil] at hk
        | cons c2 s2 =>
          by_cases h2 : c2 = NUL
          · subst h2; simp [ciKey_cons_NUL] at hk
          · rw [ciKey_cons c2 s2 h2] at hk
            simp only [List.headD_cons]
            exact (List.cons.inj hk).1.symm

theorem ImStricmp_refl (a : CStr) : ImStricmp a a = 0 := (ImStricmp_eq_zero_iff a a).mpr rfl

theorem ImStricmp_symm {a b : CStr} (h : ImStricmp a b = 0) : ImStricmp b a = 0 :=
  (ImStricmp_eq_zero_iff b a).mpr ((ImStricmp_eq_zero_iff a b).mp h).symm

theorem ImStricmp_trans {a b c : CStr} (h1 : ImStricmp a b = 0) (h2 : ImStricmp b c = 0) :
    ImStricmp a c = 0 :=
  (ImStricmp_eq_zero_iff a c).mpr
    (((ImStricmp_eq_zero_iff a b).mp h1).trans ((ImStricmp_eq_zero_iff b c).mp h2))

theorem ciKey_of_no_NUL (s : CStr) (h : ∀ c ∈ s, c ≠ NUL) : ciKey s = s.map ImToUpper := by
  unfold ciKey
  rw [List.takeWhile_eq_self_iff.mpr]
  intro c hc
  simpa using h c hc

/-! ## Submission and the history -/

theorem eraseHistoryLoop_append (line : CStr) (pre : List CStr) :
    ∀ suf : List CStr, pre.Pairwise (fun a b => ¬ ciEqual a b) →
      eraseHistoryLoop line (pre ++ suf) pre.length
        = pre.filter (fun e => ¬ ciEqual e line) ++ suf := by
  induction pre using List.reverseRecOn with
  | nil => intro suf _; rfl
  | append_singleton p x ih =>
    intro suf hp
    rw [List.pairwise_append] at hp
    obtain ⟨hpp, -, hpx⟩ := hp
    have hget : (p ++ [x] ++ suf).getD p.length [] = x := by
      rw [List.append_assoc, List.getD_eq_getElem?_getD, List.getElem?_append_right (le_refl _)]
      simp
    rw [List.length_append, List.length_singleton, eraseHistoryLoop, hget]
    by_cases hm : ImStricmp x line = 0
    · rw [if_pos hm]
      have hx : ciEqual x line := (ImStricmp_eq_zero_iff x line).mp hm
      have hnone : ∀ a ∈ p, ¬ ciEqual a line := fun a ha hal =>
        hpx a ha x (List.mem_singleton_self x) (hal.trans hx.symm)
      have hf : p.filter (fun e => ¬ ciEqual e line) = p := by
        rw [List.filter_eq_self]
        intro a ha
        simpa using hnone a ha
      rw [List.filter_append, hf]
      have : List.filter (fun e => decide (¬ ciEqual e line)) [x] = [] := by
        simp [List.filter, hx]
      rw [this, List.append_nil, List.append_assoc, List.eraseIdx_append_of_length_le (le_refl _)]
      simp
    · rw [if_neg hm]
      have hx : ¬ ciEqual x line := fun h => hm ((ImStricmp_eq_zero_iff x line).mpr h)
      rw [List.append_assoc, ih _ hpp, List.filter_append]
      have : List.filter (fun e => decide (¬ ciEqual e line)) [x] = [x] := by
        simp [List.filter, hx]
      rw [this, List.append_assoc]

theorem eraseHistoryLoop_filter (line : CStr) (h : List CStr)
    (hp : h.Pairwise (fun a b => ¬ ciEqual a b)) :
    eraseHistoryLoop line h h.length = h.filter (fun e => ¬ ciEqual e line) := by
  have := eraseHistoryLoop_append line h [] hp
  simpa using this

theorem SameButLog.rfl_ (a : Console) : SameButLog a a := by
  cases a; rfl

theorem SameButLog.trans {a b c : Console} (h1 : SameButLog a b) (h2 : SameButLog b c) :
    SameButLog a c := by
  unfold SameButLog at *
  rw [h2] at h1
  rw [h1]

theorem SameButLog.addLog (con : Console) (level text : CStr) :
    SameButLog (con.AddLog level text) con := by
  unfold SameButLog
  rw [AddLog_eq]

theorem SameButLog.clearLog (con : Console) : SameButLog con.ClearLog con := rfl

theorem SameButLog.foldl {α : Type} (f : Console → α → Console)
    (hf : ∀ c x, SameButLog (f c x) c) (xs : List α) (con : Console) :
    SameButLog (xs.foldl f con) con := by
  induction xs generalizing con with
  | nil => exact SameButLog.rfl_ con
  | cons x rest ih => exact (ih (f con x)).trans (hf con x)

theorem SameButLog.history {a b : Console} (h : SameButLog a b) : a.History = b.History := by
  rw [h]
theorem SameButLog.historyPos {a b : Console} (h : SameButLog a b) :
    a.HistoryPos = b.HistoryPos := by
  rw [h]
theorem SameButLog.logLimit {a b : Console} (h : SameButLog a b) : a.LogLimit = b.LogLimit := by
  rw [h]
theorem SameButLog.mpv_eq {a b : Console} (h : SameButLog a b) : a.mpv = b.mpv := by
  rw [h]
theorem SameButLog.commands {a b : Console} (h : SameButLog a b) : a.Commands = b.Commands := by
  rw [h]

theorem SameButLog.printHistory (con : Console) : SameButLog con.printHistory con :=
  SameButLog.foldl _ (fun c _ => SameButLog.addLog c _ _) _ _

theorem SameButLog.printHelp (con : Console) : SameButLog con.printHelp con := by
  unfold Console.printHelp
  refine (SameButLog.foldl _ (fun c _ => SameButLog.addLog c _ _) _ _).trans ?_
  refine (SameButLog.addLog _ _ _).trans ?_
  refine (SameButLog.foldl _ (fun c _ => SameButLog.addLog c _ _) _ _).trans ?_
  exact SameButLog.addLog _ _ _

theorem SameButLog.listCandidatesLoop (cands : List CStr) :
    ∀ (i : Nat) (s : CStr) (con : Console), SameButLog (listCandidatesLoop cands i s con).1 con := by
  induction cands with
  | nil => intro i s con; exact SameButLog.rfl_ con
  | cons c rest ih =>
    intro i s con
    rw [Debug.listCandidatesLoop]
    split
    · exact (ih _ _ _).trans (SameButLog.addLog _ _ _)
    · exact ih _ _ _

theorem SameButLog.listCandidates (con : Console) (cands : List CStr) :
    SameButLog (con.listCandidates cands) con := by
  unfold Console.listCandidates flushListing
  simp only []
  split
  · exact (SameButLog.addLog _ _ _).trans
      ((SameButLog.listCandidatesLoop _ _ _ _).trans (SameButLog.addLog _ _ _))
  · exact (SameButLog.listCandidatesLoop _ _ _ _).trans (SameButLog.addLog _ _ _)

theorem ExecCommand_History (con : Console) (line : CStr) :
    (con.ExecCommand line).History
      = eraseHistoryLoop line con.History con.History.length ++ [line] := by
  unfold Console.ExecCommand
  simp only []
  rw [(SameButLog.addLog con _ _).history]
  split
  · rfl
  · split
    · rw [(SameButLog.printHelp _).history]
    · split
      · rw [(SameButLog.printHistory _).history]
      · split
        · rw [(SameButLog.addLog _ _ _).history]
        · rw [(SameButLog.addLog _ _ _).history]

theorem ExecCommand_HistoryPos (con : Console) (line : CStr) :
    (con.ExecCommand line).HistoryPos = -1 := by
  unfold Console.ExecCommand
  simp only []
  split
  · rfl
  · split
    · rw [(SameButLog.printHelp _).historyPos]
    · split
      · rw [(SameButLog.printHistory _).historyPos]
      · split
        · rw [(SameButLog.addLog _ _ _).historyPos]
        · rw [(SameButLog.addLog _ _ _).historyPos]

theorem historyEvent_console (con con2 : Console) (data data2 : ImGuiInputTextCallbackData)
    (h : con.historyEvent data = some (con2, data2)) :
    con2 = { con with
      HistoryPos := nextHistoryPos data.EventKey con.HistoryPos con.History.length } := by
  unfold Console.historyEvent at h
  simp only [] at h
  split at h
  · split at h
    · exact absurd h (by simp)
    · simp only [Option.some.injEq, Prod.mk.injEq] at h
      exact h.1.symm
  · simp only [Option.some.injEq, Prod.mk.injEq] at h
    exact h.1.symm

theorem completionEvent_console (fuel : Nat) (con con2 : Console)
    (data data2 : ImGuiInputTextCallbackData)
    (h : con.completionEvent fuel data = some (con2, data2)) : SameButLog con2 con := by
  unfold Console.completionEvent at h
  simp only [] at h
  split at h
  · simp only [Option.some.injEq, Prod.mk.injEq] at h
    rw [← h.1]; exact SameButLog.addLog _ _ _
  · simp only [Option.some.injEq, Prod.mk.injEq] at h
    rw [← h.1]; exact SameButLog.rfl_ _
  · split at h
    · exact absurd h (by simp)
    · simp only [Option.some.injEq, Prod.mk.injEq] at h
      rw [← h.1]; exact SameButLog.listCandidates _ _

theorem TextEditCallback_History (fuel : Nat) (con con2 : Console)
    (data data2 : ImGuiInputTextCallbackData)
    (h : con.TextEditCallback fuel data = some (con2, data2)) : con2.History = con.History := by
  unfold Console.TextEditCallback at h
  split at h
  · exact (completionEvent_console fuel con con2 data data2 h).history
  · rw [historyEvent_console con con2 data data2 h]
  · simp only [Option.some.injEq, Prod.mk.injEq] at h
    rw [← h.1]

theorem ExecCommand_History_pairwise (con : Console) (line : CStr)
    (ih : con.History.Pairwise (fun a b => ¬ ciEqual a b)) :
    (con.ExecCommand line).History.Pairwise (fun a b => ¬ ciEqual a b) := by
  rw [ExecCommand_History, eraseHistoryLoop_filter line con.History ih, List.pairwise_append]
  refine ⟨ih.sublist (List.filter_sublist _), List.pairwise_singleton _ _, ?_⟩
  intro a ha b hb
  rw [List.mem_singleton] at hb
  subst hb
  rw [List.mem_filter] at ha
  simpa using ha.2

theorem Reachable_History_pairwise (con : Console) (hr : Reachable con) :
    con.History.Pairwise (fun a b => ¬ ciEqual a b) := by
  induction hr with
  | start mpv => exact List.Pairwise.nil
  | addLog con level text _ ih => rw [(SameButLog.addLog con level text).history]; exact ih
  | clearLog con _ ih => exact ih
  | init con level limit _ ih => exact ih
  | initCommands con commands _ ih =>
    unfold Console.initCommands
    split
    · exact ih
    · exact ih
  | submit con line _ _ ih => exact ExecCommand_History_pairwise con line ih
  | textEdit con con2 fuel data data2 _ h ih =>
    rw [TextEditCallback_History fuel con con2 data data2 h]; exact ih

theorem countP_ciEqual_of_mem (line : CStr) (h : List CStr)
    (hp : h.Pairwise (fun a b => ¬ ciEqual a b)) (hex : ∃ e ∈ h, ciEqual e line) :
    h.countP (fun e => ciEqual e line) = 1 := by
  induction h with
  | nil => obtain ⟨e, he, _⟩ := hex; cases he
  | cons x t ih =>
    rw [List.pairwise_cons] at hp
    by_cases hx : ciEqual x line
    · have h0 : t.countP (fun e => ciEqual e line) = 0 := by
        rw [List.countP_eq_zero]
        intro b hb hbl
        exact hp.1 b hb (hx.trans (of_decide_eq_true hbl).symm)
      rw [List.countP_cons_of_pos _ _ (by simpa using hx), h0]
    · obtain ⟨e, he, hel⟩ := hex
      rw [List.mem_cons] at he
      rcases he with rfl | he
      · exact absurd hel hx
      · rw [List.countP_cons_of_neg _ _ (by simpa using hx)]
        exact ih hp.2 ⟨e, he, hel⟩

/-- C2: in every console state reachable from the initial one no two history
entries are case-insensitively equal; and submitting a line that is
case-insensitively equal to an existing entry leaves exactly one entry equal to
it, namely the submitted line in last position, in front of which the other
entries stand in their previous order (the history is the old one without the
equal entry, followed by the line, so its length is unchanged). -/
theorem C2_resubmitted_line_is_unique_and_last (con : Console) (hr : Reachable con) :
    con.History.Pairwise (fun a b => ¬ ciEqual a b)
      ∧ ∀ line : CStr, (∃ e ∈ con.History, ciEqual e line) →
          ((con.ExecCommand line).History.countP (fun e => ciEqual e line) = 1
            ∧ (con.ExecCommand line).History.getLast? = some line
            ∧ (con.ExecCommand line).History
                = con.History.filter (fun e => ¬ ciEqual e line) ++ [line]
            ∧ (con.ExecCommand line).History.length = con.History.length
            ∧ (con.ExecCommand line).History.Pairwise (fun a b => ¬ ciEqual a b)) := by
  have hp := Reachable_History_pairwise con hr
  refine ⟨hp, fun line hex => ?_⟩
  have he : (con.ExecCommand line).History
      = con.History.filter (fun e => ¬ ciEqual e line) ++ [line] := by
    rw [ExecCommand_History, eraseHistoryLoop_filter line con.History hp]
  refine ⟨?_, ?_, he, ?_, ExecCommand_History_pairwise con line hp⟩
  · rw [he, List.countP_append, List.countP_filter]
    simp [List.countP_eq_zero]
  · rw [he]; simp
  · have h1 := countP_ciEqual_of_mem line con.History hp hex
    have h2 := List.length_eq_countP_add_countP (fun e => decide (ciEqual e line)) con.History
    rw [he, List.length_append, List.length_singleton, ← List.countP_eq_length_filter]
    have h3 : List.countP (fun e => decide ¬ ciEqual e line) con.History
        = List.countP (fun a => decide ¬ (decide (ciEqual a line)) = true) con.History := by
      congr 1
      funext a
      simp
    omega

/-- C2 at a concrete history: after `Quit` and `seek 5` were submitted,
submitting `quit` leaves the two lines `seek 5`, `quit`. -/
theorem C2_resubmitted_line_witness :
    Reachable (((Console.new exampleHost).ExecCommand "Quit".toList).ExecCommand "seek 5".toList)
      ∧ (∃ e ∈ (((Console.new exampleHost).ExecCommand "Quit".toList).ExecCommand
            "seek 5".toList).History, ciEqual e "quit".toList)
      ∧ ((((Console.new exampleHost).ExecCommand "Quit".toList).ExecCommand
            "seek 5".toList).ExecCommand "quit".toList).History
          = ["seek 5".toList, "quit".toList]
      ∧ ((((Console.new exampleHost).ExecCommand "Quit".toList).ExecCommand
            "seek 5".toList).ExecCommand "quit".toList).History.countP
            (fun e => ciEqual e "quit".toList) = 1 :=
  ⟨Reachable.submit _ _ (by decide)
     (Reachable.submit _ _ (by decide) (Reachable.start exampleHost)),
   by decide, by decide,
   ((C2_resubmitted_line_is_unique_and_last _
      (Reachable.submit _ _ (by decide)
        (Reachable.submit _ _ (by decide) (Reachable.start exampleHost)))).2
      "quit".toList (by decide)).1⟩
/-! ## History navigation -/

theorem nextHistoryPos_range (key : ImGuiKey) (pos : Int) (size : Nat)
    (hlo : -1 ≤ pos) (hhi : pos ≤ (size : Int) - 1) :
    -1 ≤ nextHistoryPos key pos size ∧ nextHistoryPos key pos size ≤ (size : Int) - 1 := by
  unfold nextHistoryPos
  cases key <;> simp only [] <;> (try split_ifs) <;> omega

theorem replaceAll_Buf (data : ImGuiInputTextCallbackData) (str : CStr)
    (h : str.length < InputBuf_size) :
    ((data.DeleteChars 0 data.BufTextLen).InsertChars 0 str).Buf = str := by
  have hlen : (data.DeleteChars 0 data.BufTextLen).BufTextLen = 0 := by
    simp [ImGuiInputTextCallbackData.DeleteChars, ImGuiInputTextCallbackData.BufTextLen]
  unfold ImGuiInputTextCallbackData.InsertChars
  rw [hlen, if_neg (by unfold ImGuiInputTextCallbackData.BufSize; omega)]
  simp [ImGuiInputTextCallbackData.DeleteChars, ImGuiInputTextCallbackData.BufTextLen]

theorem getD_length_lt (History : List CStr) (i : Nat)
    (hfit : ∀ line ∈ History, line.length < InputBuf_size) :
    (History.getD i []).length < InputBuf_size := by
  rw [List.getD_eq_getElem?_getD]
  by_cases h : i < History.length
  · rw [List.getElem?_eq_getElem h]
    exact hfit _ (List.getElem_mem _)
  · rw [List.getElem?_eq_none (by omega)]
    decide

theorem selected_length_lt (History : List CStr) (pos : Int)
    (hfit : ∀ line ∈ History, line.length < InputBuf_size) :
    (if pos ≥ 0 then History.getD pos.toNat [] else ([] : CStr)).length < InputBuf_size := by
  split
  · exact getD_length_lt History _ hfit
  · decide

theorem historyEvent_eq (con : Console) (data : ImGuiInputTextCallbackData)
    (hlo : -1 ≤ con.HistoryPos) (hhi : con.HistoryPos ≤ (con.History.length : Int) - 1) :
    con.historyEvent data
      = some ({ con with
                HistoryPos := nextHistoryPos data.EventKey con.HistoryPos con.History.length },
              if con.HistoryPos ≠ nextHistoryPos data.EventKey con.HistoryPos con.History.length
              then (data.DeleteChars 0 data.BufTextLen).InsertChars 0
                (if nextHistoryPos data.EventKey con.HistoryPos con.History.length ≥ 0
                 then con.History.getD
                   (nextHistoryPos data.EventKey con.HistoryPos con.History.length).toNat []
                 else [])
              else data) := by
  have hr := nextHistoryPos_range data.EventKey con.HistoryPos con.History.length hlo hhi
  unfold Console.historyEvent
  simp only []
  by_cases hc : con.HistoryPos ≠ nextHistoryPos data.EventKey con.HistoryPos con.History.length
  · rw [if_pos hc, if_pos hc]
    by_cases h0 : nextHistoryPos data.EventKey con.HistoryPos con.History.length ≥ 0
    · rw [if_pos h0, if_pos h0]
      have hlt : (nextHistoryPos data.EventKey con.HistoryPos con.History.length).toNat
          < con.History.length := by omega
      rw [List.getElem?_eq_getElem hlt, List.getD_eq_getElem _ _ hlt]
    · rw [if_neg h0, if_neg h0]
  · rw [if_neg hc, if_neg hc]

theorem Reachable_HistoryPos_range (con : Console) (hr : Reachable con) :
    -1 ≤ con.HistoryPos ∧ con.HistoryPos ≤ (con.History.length : Int) - 1 := by
  induction hr with
  | start mpv => simp [Console.new]
  | addLog con level text _ ih =>
    rw [(SameButLog.addLog con level text).history, (SameButLog.addLog con level text).historyPos]
    exact ih
  | clearLog con _ ih => exact ih
  | init con level limit _ ih => exact ih
  | initCommands con commands _ ih =>
    unfold Console.initCommands
    split
    · exact ih
    · exact ih
  | submit con line _ _ ih =>
    rw [ExecCommand_HistoryPos, ExecCommand_History, List.length_append, List.length_singleton]
    omega
  | textEdit con con2 fuel data data2 _ h ih =>
    unfold Console.TextEditCallback at h
    split at h
    · have hs := completionEvent_console fuel con con2 data data2 h
      rw [hs.history, hs.historyPos]; exact ih
    · rw [historyEvent_console con con2 data data2 h]
      exact nextHistoryPos_range _ _ _ ih.1 ih.2
    · simp only [Option.some.injEq, Prod.mk.injEq] at h
      rw [← h.1]; exact ih

theorem eraseHistoryLoop_subset (line : CStr) (h : List CStr) (k : Nat) :
    ∀ e ∈ eraseHistoryLoop line h k, e ∈ h := by
  induction k with
  | zero => intro e he; exact he
  | succ i ih =>
    rw [eraseHistoryLoop]
    split
    · intro e he; exact List.mem_of_mem_eraseIdx he
    · exact ih

theorem ExecCommand_History_fits (con : Console) (line : CStr)
    (hline : line.length < InputBuf_size)
    (hfit : ∀ e ∈ con.History, e.length < InputBuf_size) :
    ∀ e ∈ (con.ExecCommand line).History, e.length < InputBuf_size := by
  rw [ExecCommand_History]
  intro e he
  rw [List.mem_append, List.mem_singleton] at he
  rcases he with he | rfl
  · exact hfit e (eraseHistoryLoop_subset line _ _ e he)
  · exact hline

theorem Reachable_History_fits (con : Console) (hr : Reachable con) :
    ∀ e ∈ con.History, e.length < InputBuf_size := by
  induction hr with
  | start mpv => intro e he; cases he
  | addLog con level text _ ih => rw [(SameButLog.addLog con level text).history]; exact ih
  | clearLog con _ ih => exact ih
  | init con level limit _ ih => exact ih
  | initCommands con commands _ ih =>
    unfold Console.initCommands
    split
    · exact ih
    · exact ih
  | submit con line hline _ ih => exact ExecCommand_History_fits con line hline ih
  | textEdit con con2 fuel data data2 _ h ih =>
    rw [TextEditCallback_History fuel con con2 data data2 h]; exact ih

theorem Reachable_abc : Reachable abc.1 :=
  Reachable.submit _ _ (by decide) (Reachable.submit _ _ (by decide)
    (Reachable.submit _ _ (by decide) (Reachable.start exampleHost)))

theorem TextEditCallback_of_history_flag (fuel : Nat) (con : Console) (data : ImGuiInputTextCallbackData)
    (hflag : data.EventFlag = .CallbackHistory) :
    con.TextEditCallback fuel data = con.historyEvent data := by
  unfold Console.TextEditCallback
  rw [hflag]

/-- C6: in every console state reachable from the initial one (by log
messages, submissions, completion events and Up/Down history events, in any
order) the history cursor lies in [-1, History.Size - 1], also when the history
is empty; so a non-negative cursor indexes an existing entry, and every history
event raised in such a state finds the entry it looks up: it returns, and the
cursor it leaves behind again indexes an existing entry when non-negative. -/
theorem C6_HistoryPos_in_range (con : Console) (hr : Reachable con) :
    (-1 ≤ con.HistoryPos ∧ con.HistoryPos ≤ (con.History.length : Int) - 1)
      ∧ (0 ≤ con.HistoryPos → ∃ line, con.History[con.HistoryPos.toNat]? = some line)
      ∧ ∀ (fuel : Nat) (data : ImGuiInputTextCallbackData),
          data.EventFlag = .CallbackHistory →
          ∃ con2 data2, con.TextEditCallback fuel data = some (con2, data2)
            ∧ (0 ≤ con2.HistoryPos →
                ∃ line, con2.History[con2.HistoryPos.toNat]? = some line) := by
  have h := Reachable_HistoryPos_range con hr
  refine ⟨h, ?_, ?_⟩
  · intro h0
    have hlt : con.HistoryPos.toNat < con.History.length := by omega
    exact ⟨_, List.getElem?_eq_getElem hlt⟩
  · intro fuel data hflag
    refine ⟨_, _, (TextEditCallback_of_history_flag fuel con data hflag).trans
      (historyEvent_eq con data h.1 h.2), ?_⟩
    intro h0
    have hr2 := nextHistoryPos_range data.EventKey con.HistoryPos con.History.length h.1 h.2
    simp only [] at h0 ⊢
    have hlt : (nextHistoryPos data.EventKey con.HistoryPos con.History.length).toNat
        < con.History.length := by omega
    exact ⟨_, List.getElem?_eq_getElem hlt⟩

/-- C6 at a concrete state: after `a`, `b`, `c` were submitted and Up was
pressed, the cursor is 2, inside [-1, 2]. -/
theorem C6_HistoryPos_witness :
    Reachable ({ abc.1 with HistoryPos := 2 })
      ∧ (-1 ≤ ({ abc.1 with HistoryPos := 2 } : Console).HistoryPos
          ∧ ({ abc.1 with HistoryPos := 2 } : Console).HistoryPos
              ≤ (({ abc.1 with HistoryPos := 2 } : Console).History.length : Int) - 1) :=
  have hr : Reachable ({ abc.1 with HistoryPos := 2 }) :=
    Reachable.textEdit abc.1 _ 0 { abc.2 with EventKey := .UpArrow } _ Reachable_abc rfl
  ⟨hr, (C6_HistoryPos_in_range _ hr).1⟩

/-- C5: for every non-empty history of lines the input buffer can hold (shorter
than `InputBuf_size`, as every submitted line is) and every cursor that is a
position of it, a history event returns and leaves the history as it is; Up
from -1 selects the newest entry (cursor Size - 1, buffer = that entry), Up from p > 0 selects
p - 1, Up at 0 stays at 0 (and leaves the buffer alone), Down from
0 <= p < Size - 1 selects p + 1, and Down from the newest entry goes to -1 with
an empty buffer. With the history a, b, c and the cursor at -1: Up shows c, Up
again shows b, Down shows c, Down again shows the empty line at cursor -1. -/
theorem C5_history_navigation (fuel : Nat) (con : Console) (data : ImGuiInputTextCallbackData)
    (hne : con.History ≠ []) (hflag : data.EventFlag = .CallbackHistory)
    (hlo : -1 ≤ con.HistoryPos) (hhi : con.HistoryPos ≤ (con.History.length : Int) - 1)
    (hfit : ∀ line ∈ con.History, line.length < InputBuf_size) :
    (∃ con2 data2, con.TextEditCallback fuel data = some (con2, data2)
        ∧ con2.History = con.History
        ∧ (data.EventKey = .UpArrow → con.HistoryPos = -1 →
            con2.HistoryPos = (con.History.length : Int) - 1
              ∧ con.History.getLast? = some data2.Buf)
        ∧ (data.EventKey = .UpArrow → 0 < con.HistoryPos →
            con2.HistoryPos = con.HistoryPos - 1
              ∧ con.History[(con.HistoryPos - 1).toNat]? = some data2.Buf)
        ∧ (data.EventKey = .UpArrow → con.HistoryPos = 0 →
            con2.HistoryPos = 0 ∧ data2 = data)
        ∧ (data.EventKey = .DownArrow → 0 ≤ con.HistoryPos →
            con.HistoryPos < (con.History.length : Int) - 1 →
            con2.HistoryPos = con.HistoryPos + 1
              ∧ con.History[(con.HistoryPos + 1).toNat]? = some data2.Buf)
        ∧ (data.EventKey = .DownArrow → con.HistoryPos = (con.History.length : Int) - 1 →
            con2.HistoryPos = -1 ∧ data2.Buf = []))
    ∧ view (pressKey .UpArrow abc) = some (2, "c".toList)
    ∧ view ((pressKey .UpArrow abc).bind (pressKey .UpArrow)) = some (1, "b".toList)
    ∧ view (((pressKey .UpArrow abc).bind (pressKey .UpArrow)).bind (pressKey .DownArrow))
        = some (2, "c".toList)
    ∧ view ((((pressKey .UpArrow abc).bind (pressKey .UpArrow)).bind
        (pressKey .DownArrow)).bind (pressKey .DownArrow)) = some (-1, []) := by
  refine ⟨?_, by decide, by decide, by decide, by decide⟩
  have hlen : 0 < con.History.length := List.length_pos.mpr hne
  refine ⟨_, _, (TextEditCallback_of_history_flag fuel con data hflag).trans
    (historyEvent_eq con data hlo hhi), rfl, ?_, ?_, ?_, ?_, ?_⟩
  · intro hk hp
    have hn : nextHistoryPos data.EventKey con.HistoryPos con.History.length
        = (con.History.length : Int) - 1 := by
      rw [hk]; simp [nextHistoryPos, hp]
    refine ⟨hn, ?_⟩
    simp only [hn]
    rw [if_pos (by omega), replaceAll_Buf _ _ (selected_length_lt _ _ hfit), if_pos (by omega),
      List.getLast?_eq_getElem?,
      List.getD_eq_getElem?_getD]
    have hlt : con.History.length - 1 < con.History.length := by omega
    have e : ((con.History.length : Int) - 1).toNat = con.History.length - 1 := by omega
    rw [e, List.getElem?_eq_getElem hlt]
    rfl
  · intro hk hp
    have hn : nextHistoryPos data.EventKey con.HistoryPos con.History.length
        = con.HistoryPos - 1 := by
      rw [hk]; simp only [nextHistoryPos]
      rw [if_neg (by omega), if_pos hp]
    refine ⟨hn, ?_⟩
    simp only [hn]
    rw [if_pos (by omega), replaceAll_Buf _ _ (selected_length_lt _ _ hfit), if_pos (by omega),
      List.getD_eq_getElem?_getD]
    have hlt : (con.HistoryPos - 1).toNat < con.History.length := by omega
    rw [List.getElem?_eq_getElem hlt]
    rfl
  · intro hk hp
    have hn : nextHistoryPos data.EventKey con.HistoryPos con.History.length = 0 := by
      rw [hk]; simp [nextHistoryPos, hp]
    refine ⟨hn, ?_⟩
    simp only [hn]
    rw [if_neg (by omega)]
  · intro hk hp0 hp
    have hn : nextHistoryPos data.EventKey con.HistoryPos con.History.length
        = con.HistoryPos + 1 := by
      rw [hk]; simp only [nextHistoryPos]
      rw [if_pos (by omega), if_neg (by omega)]
    refine ⟨hn, ?_⟩
    simp only [hn]
    rw [if_pos (by omega), replaceAll_Buf _ _ (selected_length_lt _ _ hfit), if_pos (by omega),
      List.getD_eq_getElem?_getD]
    have hlt : (con.HistoryPos + 1).toNat < con.History.length := by omega
    rw [List.getElem?_eq_getElem hlt]
    rfl
  · intro hk hp
    have hn : nextHistoryPos data.EventKey con.HistoryPos con.History.length = -1 := by
      rw [hk]; simp only [nextHistoryPos]
      rw [if_pos (by omega), if_pos (by omega)]
    refine ⟨hn, ?_⟩
    simp only [hn]
    rw [if_pos (by omega), replaceAll_Buf _ _ (selected_length_lt _ _ hfit), if_neg (by omega)]

/-- C5 at a concrete state: with the history a, b, c and the cursor at -1, Up
moves the cursor to 2 and the buffer shows the newest entry `c`. -/
theorem C5_history_navigation_witness :
    abc.1.History ≠ []
      ∧ ({ abc.2 with EventKey := .UpArrow } : ImGuiInputTextCallbackData).EventFlag
          = .CallbackHistory
      ∧ -1 ≤ abc.1.HistoryPos ∧ abc.1.HistoryPos ≤ (abc.1.History.length : Int) - 1
      ∧ (∀ line ∈ abc.1.History, line.length < InputBuf_size)
      ∧ ∃ con2 data2, abc.1.TextEditCallback 0 { abc.2 with EventKey := .UpArrow }
            = some (con2, data2)
          ∧ con2.HistoryPos = 2 ∧ abc.1.History.getLast? = some data2.Buf := by
  refine ⟨by decide, rfl, by decide, by decide, by decide, ?_⟩
  obtain ⟨con2, data2, h1, _, h2, _⟩ :=
    (C5_history_navigation 0 abc.1 { abc.2 with EventKey := .UpArrow }
      (by decide) rfl (by decide) (by decide) (by decide)).1
  exact ⟨con2, data2, h1, (h2 rfl (by decide)).1, (h2 rfl (by decide)).2⟩

/-- C9 (amended): in every reachable console state and for every buffer
content, a history event (Up or Down) returns; when it moves the cursor, the
whole buffer afterwards is the history line the new cursor selects, verbatim,
or the empty string when the new cursor is -1; when it leaves the cursor where
it was (Up at the oldest entry, Up with an empty history, Down at -1), the
buffer and the rest of the widget data are left untouched. -/
theorem C9_history_move_replaces_buffer (fuel : Nat) (con : Console) (hr : Reachable con)
    (data : ImGuiInputTextCallbackData) (hflag : data.EventFlag = .CallbackHistory) :
    ∃ con2 data2, con.TextEditCallback fuel data = some (con2, data2)
      ∧ con2.History = con.History
      ∧ (con2.HistoryPos ≠ con.HistoryPos →
          (con2.HistoryPos = -1 → data2.Buf = [])
            ∧ (0 ≤ con2.HistoryPos → con2.History[con2.HistoryPos.toNat]? = some data2.Buf))
      ∧ (con2.HistoryPos = con.HistoryPos → data2 = data) := by
  have h := Reachable_HistoryPos_range con hr
  have hfit := Reachable_History_fits con hr
  have hr2 := nextHistoryPos_range data.EventKey con.HistoryPos con.History.length h.1 h.2
  refine ⟨_, _, (TextEditCallback_of_history_flag fuel con data hflag).trans
    (historyEvent_eq con data h.1 h.2), rfl, ?_, ?_⟩
  · intro hne
    simp only [] at hne ⊢
    rw [if_pos (Ne.symm hne), replaceAll_Buf _ _ (selected_length_lt _ _ hfit)]
    constructor
    · intro h1
      rw [if_neg (by omega)]
    · intro h0
      have hlt : (nextHistoryPos data.EventKey con.HistoryPos con.History.length).toNat
          < con.History.length := by omega
      rw [if_pos h0, List.getD_eq_getElem?_getD, List.getElem?_eq_getElem hlt]
      rfl
  · intro heq
    simp only [] at heq ⊢
    rw [if_neg (by simpa using heq.symm)]

/-- C9 at a concrete state: with the history a, b, c and the cursor at -1, Up
on a buffer holding `xyz` moves the cursor to 2 and the buffer becomes `c`. -/
theorem C9_history_move_witness :
    Reachable abc.1
      ∧ ({ abc.2 with EventKey := .UpArrow, Buf := "xyz".toList } :
          ImGuiInputTextCallbackData).EventFlag = .CallbackHistory
      ∧ ∃ con2 data2,
          abc.1.TextEditCallback 0 { abc.2 with EventKey := .UpArrow, Buf := "xyz".toList }
            = some (con2, data2)
          ∧ con2.History = abc.1.History
          ∧ (con2.HistoryPos ≠ abc.1.HistoryPos →
              (con2.HistoryPos = -1 → data2.Buf = [])
                ∧ (0 ≤ con2.HistoryPos → con2.History[con2.HistoryPos.toNat]? = some data2.Buf))
          ∧ (con2.HistoryPos = abc.1.HistoryPos →
              data2 = { abc.2 with EventKey := .UpArrow, Buf := "xyz".toList }) :=
  ⟨Reachable_abc, rfl,
   C9_history_move_replaces_buffer 0 abc.1 Reachable_abc
     { abc.2 with EventKey := .UpArrow, Buf := "xyz".toList } rfl⟩

/-- C9 as stated fails. After `a` was submitted the cursor is -1; Down on a
buffer holding `xyz` leaves the cursor at -1 and the buffer at `xyz`, which is
not the empty string. And after Up selected the entry `a` (cursor 0), Up on a
buffer the user has edited to `ab` leaves the cursor at 0 and the buffer at
`ab`, which is not the selected history line `a`. -/
theorem C9_counterexample :
    (view (((Console.new exampleHost).ExecCommand "a".toList).TextEditCallback 0
        { EventFlag := .CallbackHistory, EventKey := .DownArrow, Buf := "xyz".toList,
          CursorPos := 3 })
      = some (-1, "xyz".toList)
      ∧ "xyz".toList ≠ ([] : CStr))
    ∧ (view ((pressKey .UpArrow ((Console.new exampleHost).ExecCommand "a".toList,
          { EventFlag := .CallbackHistory, EventKey := .Other, Buf := [], CursorPos := 0 })).bind
          fun st => pressKey .UpArrow (st.1, { st.2 with Buf := "ab".toList, CursorPos := 2 }))
        = some (0, "ab".toList)
      ∧ ((Console.new exampleHost).ExecCommand "a".toList).History[0]? = some "a".toList
      ∧ "ab".toList ≠ "a".toList) := by
  decide

/-! ## Dispatch of a submitted line -/

theorem logTail_getLast (limit : Int) (h1 : 1 ≤ limit) (xs : List LogItem) (x : LogItem) :
    (logTail limit (xs ++ [x])).getLast? = some x := by
  obtain ⟨n, rfl⟩ := Int.eq_ofNat_of_zero_le (by omega : 0 ≤ limit)
  rw [logTail_ofNat, List.length_append, List.length_singleton,
    List.drop_append_of_le_length (by omega)]
  simp

theorem vsnprintf_buf_short (s : CStr) (h : s.length ≤ 1023) : vsnprintf_buf s = s :=
  List.take_of_length_le h

theorem ExecCommand_host (con : Console) (line : CStr)
    (h1 : ImStricmp line "CLEAR".toList ≠ 0) (h2 : ImStricmp line "HELP".toList ≠ 0)
    (h3 : ImStricmp line "HISTORY".toList ≠ 0) :
    (con.ExecCommand line).mpv.executed = con.mpv.executed ++ [line]
      ∧ (con.ExecCommand line).Items
          = logTail con.LogLimit (con.Items
              ++ [{ Str := vsnprintf_buf ("# ".toList ++ line ++ "\n".toList), Lev := "info".toList },
                  if con.mpv.command_result con.mpv.executed line < 0 then
                    { Str := vsnprintf_buf
                        (con.mpv.error_string (con.mpv.command_result con.mpv.executed line)),
                      Lev := "error".toList }
                  else { Str := "[mpv] Success".toList, Lev := "info".toList }]) := by
  unfold Console.ExecCommand
  simp only []
  rw [if_neg h1, if_neg h2, if_neg h3]
  by_cases he : con.mpv.command_result con.mpv.executed line < 0
  · have he2 : (mpv_command_string (con.AddLog "info".toList
        ("# ".toList ++ line ++ "\n".toList)).mpv line).1 < 0 := by
      rw [(SameButLog.addLog _ _ _).mpv_eq]; exact he
    rw [if_pos he2, if_pos he]
    simp only [AddLog_eq, logTail_append_logTail, mpv_command_string, List.append_assoc,
      List.singleton_append, and_self]
  · have he2 : ¬ (mpv_command_string (con.AddLog "info".toList
        ("# ".toList ++ line ++ "\n".toList)).mpv line).1 < 0 := by
      rw [(SameButLog.addLog _ _ _).mpv_eq]; exact he
    rw [if_neg he2, if_neg he]
    simp only [AddLog_eq, logTail_append_logTail, mpv_command_string, List.append_assoc,
      List.singleton_append, true_and]
    rfl

/-- C7 (amended): on every console whose log capacity is not negative, for
every submitted line that is not one of the meta-commands CLEAR, HELP, HISTORY
(compared case-insensitively), `ExecCommand` returns; the
line is handed verbatim to the host's command execution (as the one new host
call); after the echo of the line exactly one entry is appended to the log,
which keeps what its capacity allows (`logTail`): an error-level entry carrying
the host's error message (cut to the 1023 characters of the log formatter) if
and only if the host reports a negative result, and otherwise the info-level
confirmation; while the capacity is at least 1 that entry is the last log entry
afterwards; and the line is recorded as the newest history entry. -/
theorem C7_other_lines_go_to_host (con : Console) (line : CStr)
    (_hcap : 0 ≤ con.LogLimit)
    (h1 : ¬ ciEqual line "CLEAR".toList) (h2 : ¬ ciEqual line "HELP".toList)
    (h3 : ¬ ciEqual line "HISTORY".toList) :
    ∃ result : LogItem,
      (con.ExecCommand line).mpv.executed = con.mpv.executed ++ [line]
        ∧ (con.ExecCommand line).Items
            = logTail con.LogLimit (con.Items
                ++ [{ Str := vsnprintf_buf ("# ".toList ++ line ++ "\n".toList),
                      Lev := "info".toList }, result])
        ∧ (1 ≤ con.LogLimit → (con.ExecCommand line).Items.getLast? = some result)
        ∧ (result.Lev = "error".toList ↔ con.mpv.command_result con.mpv.executed line < 0)
        ∧ (con.mpv.command_result con.mpv.executed line < 0 →
            result = { Str := vsnprintf_buf
                         (con.mpv.error_string (con.mpv.command_result con.mpv.executed line)),
                       Lev := "error".toList }
              ∧ ((con.mpv.error_string
                    (con.mpv.command_result con.mpv.executed line)).length ≤ 1023 →
                  result.Str
                    = con.mpv.error_string (con.mpv.command_result con.mpv.executed line)))
        ∧ (¬ con.mpv.command_result con.mpv.executed line < 0 →
            result = { Str := "[mpv] Success".toList, Lev := "info".toList })
        ∧ (con.ExecCommand line).History.getLast? = some line := by
  have hx := ExecCommand_host con line
    (fun h => h1 ((ImStricmp_eq_zero_iff _ _).mp h))
    (fun h => h2 ((ImStricmp_eq_zero_iff _ _).mp h))
    (fun h => h3 ((ImStricmp_eq_zero_iff _ _).mp h))
  refine ⟨_, hx.1, hx.2, ?_, ?_, ?_, ?_, ?_⟩
  · intro hl
    rw [hx.2]
    have hg := logTail_getLast con.LogLimit hl
      (con.Items ++ [{ Str := vsnprintf_buf ("# ".toList ++ line ++ "\n".toList),
                       Lev := "info".toList }])
      (if con.mpv.command_result con.mpv.executed line < 0 then
        { Str := vsnprintf_buf
            (con.mpv.error_string (con.mpv.command_result con.mpv.executed line)),
          Lev := "error".toList }
       else { Str := "[mpv] Success".toList, Lev := "info".toList })
    rw [List.append_assoc] at hg
    exact hg
  · by_cases he : con.mpv.command_result con.mpv.executed line < 0
    · rw [if_pos he]; exact iff_of_true rfl he
    · rw [if_neg he]; exact iff_of_false (by decide) he
  · intro he
    rw [if_pos he]
    exact ⟨rfl, fun hlen => vsnprintf_buf_short _ hlen⟩
  · intro he
    rw [if_neg he]
  · rw [ExecCommand_History]; simp

/-- C7 at concrete inputs: the sample host rejects `bad`; with the default
capacity the log then ends with the error entry, and the host has received
`bad`. -/
theorem C7_other_lines_witness :
    (0 : Int) ≤ (Console.new exampleHost).LogLimit
      ∧ (1 : Int) ≤ (Console.new exampleHost).LogLimit
      ∧ ¬ ciEqual "bad".toList "CLEAR".toList ∧ ¬ ciEqual "bad".toList "HELP".toList
      ∧ ¬ ciEqual "bad".toList "HISTORY".toList
      ∧ (∃ result : LogItem,
          ((Console.new exampleHost).ExecCommand "bad".toList).mpv.executed = ["bad".toList]
            ∧ ((Console.new exampleHost).ExecCommand "bad".toList).Items.getLast? = some result
            ∧ result = { Str := "invalid parameter".toList, Lev := "error".toList }) := by
  refine ⟨by decide, by decide, by decide, by decide, by decide, ?_⟩
  obtain ⟨result, hexec, _, hlast, _, herr, _, _⟩ :=
    C7_other_lines_go_to_host (Console.new exampleHost) "bad".toList
      (by decide) (by decide) (by decide) (by decide)
  exact ⟨result, hexec, hlast (by decide), (herr (by decide)).1⟩

/-- C7 as stated fails when the log capacity is 0 (the "Lines" field of the
console accepts it): the host accepts `quit`, the confirmation is appended and
evicted at once, and the log afterwards is empty, so its last entry is no
info-level confirmation. -/
theorem C7_counterexample :
    (((Console.new exampleHost).init "v".toList 0).ExecCommand "quit".toList).Items = []
      ∧ (((Console.new exampleHost).init "v".toList 0).ExecCommand "quit".toList).Items.getLast?
          ≠ some { Str := "[mpv] Success".toList, Lev := "info".toList }
      ∧ ¬ exampleHost.command_result exampleHost.executed "quit".toList < 0
      ∧ (((Console.new exampleHost).init "v".toList 0).ExecCommand "quit".toList).mpv.executed
          = ["quit".toList] := by
  decide

/-! ## The HISTORY command -/

theorem logTail_idem (limit : Int) (xs : List LogItem) :
    logTail limit (logTail limit xs) = logTail limit xs := by
  have h := logTail_append_logTail limit xs []
  simpa using h

theorem foldl_AddLog_Items_of_logTail {α : Type} (lev txt : α → CStr) (xs : List α)
    (con : Console) (base : List LogItem) (hb : con.Items = logTail con.LogLimit base) :
    (xs.foldl (fun (c : Console) (x : α) => c.AddLog (lev x) (txt x)) con).Items
      = logTail con.LogLimit
          (base ++ xs.map fun x => { Str := vsnprintf_buf (txt x), Lev := lev x }) := by
  rw [foldl_AddLog_eq]
  cases xs with
  | nil => simp [hb]
  | cons x rest =>
    simp only [List.isEmpty_cons, Bool.false_eq_true, if_false]
    rw [hb, logTail_append_logTail]

theorem eraseHistoryLoop_length_le (line : CStr) (h : List CStr) (k : Nat) :
    (eraseHistoryLoop line h k).length ≤ h.length := by
  induction k with
  | zero => exact le_refl _
  | succ i ih =>
    rw [eraseHistoryLoop]
    split
    · rw [List.length_eraseIdx]; split <;> omega
    · exact ih

theorem ExecCommand_history_cmd (con : Console) (line : CStr)
    (hline : ciEqual line "HISTORY".toList) :
    (con.ExecCommand line).Items
      = logTail con.LogLimit (con.Items
          ++ { Str := vsnprintf_buf ("# ".toList ++ line ++ "\n".toList), Lev := "info".toList }
            :: (List.range' ((con.ExecCommand line).History.length - 10)
                  (min (con.ExecCommand line).History.length 10)).map
                (historyLine (con.ExecCommand line).History)) := by
  have h1 : ¬ ImStricmp line "CLEAR".toList = 0 := by
    intro h
    have := ((ImStricmp_eq_zero_iff _ _).mp h).symm.trans hline
    exact absurd this (by decide)
  have h2 : ¬ ImStricmp line "HELP".toList = 0 := by
    intro h
    have := ((ImStricmp_eq_zero_iff _ _).mp h).symm.trans hline
    exact absurd this (by decide)
  have h3 : ImStricmp line "HISTORY".toList = 0 := (ImStricmp_eq_zero_iff _ _).mpr hline
  rw [ExecCommand_History]
  unfold Console.ExecCommand
  simp only []
  rw [if_neg h1, if_neg h2, if_pos h3]
  unfold Console.printHistory
  simp only []
  rw [foldl_AddLog_Items_of_logTail (fun _ => "info".toList) _ _ _
    (con.Items ++ [{ Str := vsnprintf_buf ("# ".toList ++ line ++ "\n".toList),
                     Lev := "info".toList }]) (by simp only [AddLog_eq])]
  rw [(SameButLog.addLog con _ _).history]
  simp only [AddLog_eq, List.append_assoc, List.singleton_append]
  generalize eraseHistoryLoop line con.History con.History.length ++ [line] = hist
  have e1 : (if (hist.length : Int) - 10 > 0 then (hist.length : Int) - 10 else 0).toNat
      = hist.length - 10 := by
    split <;> omega
  have e2 : hist.length - (hist.length - 10) = min hist.length 10 := by omega
  rw [e1, e2]
  unfold historyLine
  simp only [List.append_assoc]

theorem submitAll_append (con : Console) (lines : List CStr) (line : CStr) :
    submitAll con (lines ++ [line]) = (submitAll con lines).ExecCommand line := by
  unfold submitAll
  rw [List.foldl_append]
  rfl

theorem submitAll_History_length_le (con : Console) (lines : List CStr) :
    (submitAll con lines).History.length ≤ con.History.length + lines.length := by
  induction lines using List.reverseRecOn with
  | nil => exact le_refl _
  | append_singleton ls x ih =>
    rw [submitAll_append, ExecCommand_History]
    simp only [List.length_append, List.length_singleton]
    have := eraseHistoryLoop_length_le x (submitAll con ls).History
      (submitAll con ls).History.length
    omega

theorem submitAll_History_distinct (con : Console) (hc : con.History = []) (lines : List CStr)
    (hp : lines.Pairwise (fun a b => ¬ ciEqual a b)) :
    (submitAll con lines).History = lines := by
  induction lines using List.reverseRecOn with
  | nil => exact hc
  | append_singleton ls x ih =>
    rw [List.pairwise_append] at hp
    obtain ⟨hls, -, hx⟩ := hp
    rw [submitAll_append, ExecCommand_History, ih hls, eraseHistoryLoop_filter x ls hls]
    congr 1
    rw [List.filter_eq_self]
    intro a ha
    simpa using hx a ha x (List.mem_singleton_self x)

/-- C8 (amended): submitting a line that is case-insensitively HISTORY appends
to the log which keeps what its capacity allows (`logTail`), after
the echo of the line, exactly min(H, 10) lines, where H is the number of history
entries once this line itself has been recorded (so H >= 1, and H is at most
one more than before); they cover the last min(H, 10) entries in order, and the
line for the entry at position i is the index i right aligned in three columns,
a colon and a space, the entry's text and a newline (`historyLine`). After N
earlier submissions from the initial console H <= N + 1, with H = N + 1 when the
N lines and the HISTORY line are pairwise different case-insensitively. -/
theorem C8_history_listing (con : Console) (line : CStr)
    (hline : ciEqual line "HISTORY".toList) :
    (con.ExecCommand line).Items
        = logTail con.LogLimit (con.Items
            ++ { Str := vsnprintf_buf ("# ".toList ++ line ++ "\n".toList),
                 Lev := "info".toList }
              :: (List.range'
                    ((con.ExecCommand line).History.length
                      - min (con.ExecCommand line).History.length 10)
                    (min (con.ExecCommand line).History.length 10)).map
                  (historyLine (con.ExecCommand line).History))
      ∧ ((List.range'
            ((con.ExecCommand line).History.length
              - min (con.ExecCommand line).History.length 10)
            (min (con.ExecCommand line).History.length 10)).map
          (historyLine (con.ExecCommand line).History)).length
          = min (con.ExecCommand line).History.length 10
      ∧ (con.ExecCommand line).History.getLast? = some line
      ∧ 1 ≤ (con.ExecCommand line).History.length
      ∧ (con.ExecCommand line).History.length ≤ con.History.length + 1
      ∧ ∀ (mpv : mpv_handle) (lines : List CStr), con = submitAll (Console.new mpv) lines →
          (con.ExecCommand line).History.length ≤ lines.length + 1
            ∧ ((lines ++ [line]).Pairwise (fun a b => ¬ ciEqual a b) →
                (con.ExecCommand line).History.length = lines.length + 1) := by
  have he : (con.ExecCommand line).History.length
      - min (con.ExecCommand line).History.length 10
      = (con.ExecCommand line).History.length - 10 := by omega
  refine ⟨?_, ?_, ?_, ?_, ?_, ?_⟩
  · rw [he]; exact ExecCommand_history_cmd con line hline
  · rw [List.length_map, List.length_range']
  · rw [ExecCommand_History]; simp
  · rw [ExecCommand_History, List.length_append, List.length_singleton]; omega
  · rw [ExecCommand_History, List.length_append, List.length_singleton]
    have := eraseHistoryLoop_length_le line con.History con.History.length
    omega
  · intro mpv lines hcon
    subst hcon
    rw [← submitAll_append]
    constructor
    · have := submitAll_History_length_le (Console.new mpv) (lines ++ [line])
      rw [List.length_append, List.length_singleton] at this
      simpa [Console.new] using this
    · intro hp
      rw [submitAll_History_distinct (Console.new mpv) rfl _ hp, List.length_append,
        List.length_singleton]

/-- C8 at a concrete console: after `a` and `b`, the line `history` prints the
three history lines for `a`, `b` and `history` itself. -/
theorem C8_history_listing_witness :
    ciEqual "history".toList "HISTORY".toList
      ∧ ((submitAll (Console.new exampleHost) ["a".toList, "b".toList]).ExecCommand
            "history".toList).Items
          = logTail 5000
              ((submitAll (Console.new exampleHost) ["a".toList, "b".toList]).Items
                ++ [{ Str := "# history\n".toList, Lev := "info".toList },
                    { Str := "  0: a\n".toList, Lev := "info".toList },
                    { Str := "  1: b\n".toList, Lev := "info".toList },
                    { Str := "  2: history\n".toList, Lev := "info".toList }]) :=
  ⟨by decide,
   (C8_history_listing (submitAll (Console.new exampleHost) ["a".toList, "b".toList])
      "history".toList (by decide)).1.trans (by decide)⟩

/-- C8 as stated fails. With N = 0 earlier submissions the HISTORY line is
itself recorded before the listing, so one line is printed, not min(0, 10) = 0.
And after the N = 3 submissions `a`, `a`, `a` the history holds `a` once, so two
lines are printed, not min(3, 10) = 3. -/
theorem C8_counterexample :
    (((Console.new exampleHost).ExecCommand "HISTORY".toList).Items
        = [{ Str := "# HISTORY\n".toList, Lev := "info".toList },
           { Str := "  0: HISTORY\n".toList, Lev := "info".toList }]
      ∧ ([{ Str := "  0: HISTORY\n".toList, Lev := "info".toList }] : List LogItem).length
          ≠ min 0 10)
    ∧ (((submitAll (Console.new exampleHost) ["a".toList, "a".toList, "a".toList]).ExecCommand
          "HISTORY".toList).Items
        = (submitAll (Console.new exampleHost) ["a".toList, "a".toList, "a".toList]).Items
            ++ [{ Str := "# HISTORY\n".toList, Lev := "info".toList },
                { Str := "  0: a\n".toList, Lev := "info".toList },
                { Str := "  1: HISTORY\n".toList, Lev := "info".toList }]
      ∧ ([{ Str := "  0: a\n".toList, Lev := "info".toList },
          { Str := "  1: HISTORY\n".toList, Lev := "info".toList }] : List LogItem).length
          ≠ min 3 10) := by
  decide

/-! ## Tab-completion -/

theorem scanWordStart_le (Buf : CStr) (p : Nat) : scanWordStart Buf p ≤ p := by
  induction p with
  | zero => exact le_refl _
  | succ p ih =>
    rw [scanWordStart]
    split
    · exact le_refl _
    · omega

theorem scanWordStart_eq (Buf : CStr) (cursor ws : Nat) (hws : ws ≤ cursor)
    (hleft : ws = 0 ∨ isDelimiter (Buf.getD (ws - 1) NUL))
    (hword : ∀ i, ws ≤ i → i < cursor → ¬ isDelimiter (Buf.getD i NUL)) :
    scanWordStart Buf cursor = ws := by
  induction cursor with
  | zero =>
    have : ws = 0 := by omega
    rw [this]; rfl
  | succ p ih =>
    rw [scanWordStart]
    by_cases hp : ws = p + 1
    · rcases hleft with h0 | hd
      · omega
      · rw [hp, Nat.add_sub_cancel] at hd
        unfold isDelimiter at hd
        rw [if_pos hd, hp]
    · have hnd := hword p (by omega) (by omega)
      unfold isDelimiter at hnd
      rw [if_neg hnd]
      exact ih (by omega) (fun i h1 h2 => hword i h1 (by omega))

theorem toupper_eq_ImToUpper (c : Char) : toupper c = ImToUpper c := rfl

theorem ciStartsWith_nil (cmd : CStr) : ciStartsWith [] cmd :=
  ⟨Nat.zero_le _, rfl⟩

theorem ciStartsWith_cons_nil (w : Char) (ws : CStr) : ¬ ciStartsWith (w :: ws) [] := by
  rintro ⟨h, _⟩
  simp at h

theorem ciStartsWith_cons_cons (w c1 : Char) (ws s1 : CStr) :
    ciStartsWith (w :: ws) (c1 :: s1) ↔ toupper c1 = toupper w ∧ ciStartsWith ws s1 := by
  unfold ciStartsWith
  simp only [List.length_cons, List.take_succ_cons, List.map_cons, List.cons.injEq,
    Nat.add_le_add_iff_right]
  tauto

theorem ImStrnicmp_eq_zero_iff (word : CStr) (hnul : ∀ c ∈ word, c ≠ NUL) :
    ∀ (cmd rest : CStr), ImStrnicmp cmd (word ++ rest) word.length = 0 ↔ ciStartsWith word cmd := by
  induction word with
  | nil =>
    intro cmd rest
    exact iff_of_true (by simp [ImStrnicmp]) (ciStartsWith_nil cmd)
  | cons w ws ih =>
    intro cmd rest
    have hw : w ≠ NUL := hnul w (List.mem_cons_self _ _)
    have hupw : ImToUpper w ≠ NUL := fun h => hw (ImToUpper_eq_NUL.mp h)
    cases cmd with
    | nil =>
      refine iff_of_false ?_ (ciStartsWith_cons_nil w ws)
      rw [List.length_cons, ImStrnicmp, List.cons_append, List.headD_cons, Char_sub_eq_zero]
      intro h
      exact hupw (h.trans (ImToUpper_eq_NUL.mpr rfl))
    | cons c1 s1 =>
      rw [List.length_cons, ImStrnicmp, List.cons_append, List.headD_cons, List.tail_cons,
        ciStartsWith_cons_cons]
      by_cases hd : ImToUpper w = ImToUpper c1
      · have hc1 : c1 ≠ NUL := by
          intro h
          subst h
          exact hupw (hd.trans (ImToUpper_eq_NUL.mpr rfl))
        rw [if_pos ⟨Char_sub_eq_zero.mpr hd, hc1⟩,
          ih (fun c hc => hnul c (List.mem_cons_of_mem _ hc))]
        exact ⟨fun h => ⟨hd.symm, h⟩, fun h => h.2⟩
      · rw [if_neg (fun h => hd (Char_sub_eq_zero.mp h.1)), Char_sub_eq_zero]
        exact iff_of_false hd (fun h => hd h.1.symm)

theorem DeleteChars_word (data : ImGuiInputTextCallbackData) (ws : Nat)
    (hws : ws ≤ data.CursorPos) :
    data.DeleteChars ws (data.CursorPos - ws)
      = { data with Buf := data.Buf.take ws ++ data.Buf.drop data.CursorPos, CursorPos := ws } := by
  unfold ImGuiInputTextCallbackData.DeleteChars
  have e1 : ws + (data.CursorPos - ws) = data.CursorPos := by omega
  have e2 : data.CursorPos - (data.CursorPos - ws) = ws := by omega
  rw [e1, if_pos (le_refl _), e2]

theorem DeleteChars_word_BufTextLen (data : ImGuiInputTextCallbackData) (ws : Nat)
    (hws : ws ≤ data.CursorPos) (hcur : data.CursorPos ≤ data.Buf.length) :
    (data.DeleteChars ws (data.CursorPos - ws)).BufTextLen
      = data.Buf.length - (data.CursorPos - ws) := by
  rw [DeleteChars_word data ws hws]
  unfold ImGuiInputTextCallbackData.BufTextLen
  simp only [List.length_append, List.length_take, List.length_drop]
  omega

theorem InsertChars_of_fit (data : ImGuiInputTextCallbackData) (pos : Nat) (text : CStr)
    (hfit : text.length + data.Buf.length < InputBuf_size) :
    data.InsertChars pos text
      = { data with
          Buf := data.Buf.take pos ++ text ++ data.Buf.drop pos,
          CursorPos :=
            if data.CursorPos ≥ pos then data.CursorPos + text.length else data.CursorPos } := by
  unfold ImGuiInputTextCallbackData.InsertChars
  rw [if_neg]
  unfold ImGuiInputTextCallbackData.BufSize ImGuiInputTextCallbackData.BufTextLen
  omega

theorem InsertChars_of_no_fit (data : ImGuiInputTextCallbackData) (pos : Nat) (text : CStr)
    (hfit : InputBuf_size ≤ text.length + data.Buf.length) :
    data.InsertChars pos text = data := by
  unfold ImGuiInputTextCallbackData.InsertChars
  rw [if_pos]
  unfold ImGuiInputTextCallbackData.BufSize ImGuiInputTextCallbackData.BufTextLen
  omega

theorem replaceWord (data : ImGuiInputTextCallbackData) (ws : Nat) (text : CStr)
    (hws : ws ≤ data.CursorPos) (hcur : data.CursorPos ≤ data.Buf.length)
    (hfit : text.length + (data.Buf.length - (data.CursorPos - ws)) < InputBuf_size) :
    (data.DeleteChars ws (data.CursorPos - ws)).InsertChars
        (data.DeleteChars ws (data.CursorPos - ws)).CursorPos text
      = { data with
          Buf := data.Buf.take ws ++ text ++ data.Buf.drop data.CursorPos,
          CursorPos := ws + text.length } := by
  have hlen := DeleteChars_word_BufTextLen data ws hws hcur
  unfold ImGuiInputTextCallbackData.BufTextLen at hlen
  rw [InsertChars_of_fit _ _ _ (by rw [hlen]; exact hfit)]
  rw [DeleteChars_word data ws hws]
  simp only [ge_iff_le, le_refl, if_true]
  have hl : (data.Buf.take ws).length = ws := by
    rw [List.length_take]; omega
  congr 1
  rw [List.take_append_of_le_length (by omega), List.drop_append_of_le_length (by omega),
    List.take_of_length_le (by omega), List.drop_of_length_le (by omega)]
  simp

theorem collectCandidates_eq (Commands : List CStr) (Buf : CStr) (ws cursor : Nat)
    (hws : ws ≤ cursor) (hcur : cursor ≤ Buf.length) (hnul : ∀ c ∈ Buf, c ≠ NUL) :
    collectCandidates Commands Buf ws cursor
      = Commands.filter (fun cmd => ciStartsWith ((Buf.take cursor).drop ws) cmd) := by
  unfold collectCandidates
  have hlen : ((Buf.take cursor).drop ws).length = cursor - ws := by
    rw [List.length_drop, List.length_take]; omega
  have hsplit : Buf.drop ws = (Buf.take cursor).drop ws ++ Buf.drop cursor := by
    conv_lhs => rw [← List.take_append_drop cursor Buf]
    rw [List.drop_append_of_le_length (by rw [List.length_take]; omega)]
  have hn : ∀ c ∈ (Buf.take cursor).drop ws, c ≠ NUL := fun c hc =>
    hnul c (List.mem_of_mem_take (List.mem_of_mem_drop hc))
  apply List.filter_congr
  intro cmd _
  have := ImStrnicmp_eq_zero_iff _ hn cmd (Buf.drop cursor)
  rw [hlen, ← hsplit] at this
  simp only [this]

theorem TextEditCallback_of_completion_flag (fuel : Nat) (con : Console)
    (data : ImGuiInputTextCallbackData) (hflag : data.EventFlag = .CallbackCompletion) :
    con.TextEditCallback fuel data = con.completionEvent fuel data := by
  unfold Console.TextEditCallback
  rw [hflag]

/-- C4 (amended): for every buffer and cursor position in it, when exactly one
entry of the known-command list starts, case-insensitively, with the word between the nearest
delimiter to the left of the cursor (space, tab, comma, semicolon, or the start
of the buffer) and the cursor, and the buffer with the word replaced by the
command's name and one space is shorter than `InputBuf_size` (it fits the
256-byte input buffer with its terminator), a completion event returns,
replaces exactly that word with the command's name followed by one space, puts
the cursor behind the space, leaves the text before the word and after the
cursor as it was, and leaves the console, its log included, untouched. -/
theorem C4_single_match_completes_word (fuel : Nat) (con : Console)
    (data : ImGuiInputTextCallbackData) (ws : Nat) (cand : CStr)
    (hflag : data.EventFlag = .CallbackCompletion)
    (hcur : data.CursorPos ≤ data.Buf.length) (hnul : ∀ c ∈ data.Buf, c ≠ NUL)
    (hws : ws ≤ data.CursorPos)
    (hleft : ws = 0 ∨ isDelimiter (data.Buf.getD (ws - 1) NUL))
    (hword : ∀ i, ws ≤ i → i < data.CursorPos → ¬ isDelimiter (data.Buf.getD i NUL))
    (hone : con.Commands.filter
        (fun cmd => ciStartsWith ((data.Buf.take data.CursorPos).drop ws) cmd) = [cand])
    (hfit : data.Buf.length - (data.CursorPos - ws) + cand.length + 1 < InputBuf_size) :
    con.TextEditCallback fuel data
      = some (con, { data with
          Buf := data.Buf.take ws ++ cand ++ " ".toList ++ data.Buf.drop data.CursorPos,
          CursorPos := ws + cand.length + 1 }) := by
  have hscan := scanWordStart_eq data.Buf data.CursorPos ws hws hleft hword
  have hcands := collectCandidates_eq con.Commands data.Buf ws data.CursorPos hws hcur hnul
  rw [hone] at hcands
  rw [TextEditCallback_of_completion_flag fuel con data hflag]
  unfold Console.completionEvent
  simp only []
  rw [hscan, hcands]
  simp only []
  rw [replaceWord data ws cand hws hcur (by omega)]
  have hl : (data.Buf.take ws).length = ws := by
    rw [List.length_take]; omega
  have hsp : " ".toList.length = 1 := rfl
  rw [InsertChars_of_fit _ _ _ (by
    simp only [List.length_append, List.length_take, List.length_drop]
    rw [hsp]
    omega)]
  simp only [ge_iff_le, le_refl, if_true]
  congr 2
  rw [List.take_append_of_le_length (by rw [List.length_append]; omega),
    List.drop_append_of_le_length (by rw [List.length_append]; omega),
    List.take_of_length_le (by rw [List.length_append]; omega),
    List.drop_of_length_le (by rw [List.length_append]; omega)]
  simp

/-- C4 at concrete inputs: with `quit` the only known command starting with
`qu`, Tab turns the buffer `qu` into `quit ` and logs nothing; in the buffer
`a;qu b` with the cursor behind `qu` only that word is replaced. -/
theorem C4_single_match_witness :
    (tabAt "a;qu b".toList 4).EventFlag = .CallbackCompletion
      ∧ (tabAt "a;qu b".toList 4).CursorPos ≤ (tabAt "a;qu b".toList 4).Buf.length
      ∧ (∀ c ∈ (tabAt "a;qu b".toList 4).Buf, c ≠ NUL)
      ∧ isDelimiter ((tabAt "a;qu b".toList 4).Buf.getD (2 - 1) NUL)
      ∧ sampleConsole.Commands.filter
          (fun cmd => ciStartsWith (((tabAt "a;qu b".toList 4).Buf.take 4).drop 2) cmd)
          = ["quit".toList]
      ∧ (tabAt "a;qu b".toList 4).Buf.length - ((tabAt "a;qu b".toList 4).CursorPos - 2)
          + "quit".toList.length + 1 < InputBuf_size
      ∧ sampleConsole.TextEditCallback 0 (tabAt "a;qu b".toList 4)
          = some (sampleConsole, tabAt "a;quit  b".toList 7)
      ∧ sampleConsole.TextEditCallback 0 (tabAt "qu".toList 2)
          = some (sampleConsole, tabAt "quit ".toList 5) :=
  ⟨rfl, by decide, by decide, by decide, by decide, by decide,
   C4_single_match_completes_word 0 sampleConsole (tabAt "a;qu b".toList 4) 2 "quit".toList
     rfl (by decide) (by decide) (by decide) (Or.inr (by decide))
     (fun i h1 h2 => by
        have hi : i = 2 ∨ i = 3 := by
          have h2' : i < 4 := h2
          omega
        rcases hi with rfl | rfl <;> decide)
     (by decide) (by decide),
   C4_single_match_completes_word 0 sampleConsole (tabAt "qu".toList 2) 0 "quit".toList
     rfl (by decide) (by decide) (by decide) (Or.inl rfl)
     (fun i _ h2 => by
        have hi : i = 0 ∨ i = 1 := by
          have h2' : i < 2 := h2
          omega
        rcases hi with rfl | rfl <;> decide)
     (by decide) (by decide)⟩

set_option maxRecDepth 8000 in
/-- C4 as stated fails when the completed text does not fit the input
buffer: in a buffer of 255 characters, 252 times `x` and then `;qu` with the
cursor at the end, `quit` is the only known command starting with `qu`, and a
completion event deletes `qu`, inserts no `quit` (4 + 253 characters do not fit
256 bytes) and then inserts the space, so the word `qu` is replaced by one
space and not by `quit` and a space. -/
theorem C4_counterexample :
    sampleConsole.Commands.filter
        (fun cmd => ciStartsWith
          (((List.replicate 252 'x' ++ ";qu".toList).take 255).drop 253) cmd)
        = ["quit".toList]
      ∧ sampleConsole.TextEditCallback 0 (tabAt (List.replicate 252 'x' ++ ";qu".toList) 255)
          = some (sampleConsole, tabAt (List.replicate 252 'x' ++ "; ".toList) 254)
      ∧ (tabAt (List.replicate 252 'x' ++ "; ".toList) 254).Buf
          ≠ List.replicate 252 'x' ++ ";quit ".toList := by
  refine ⟨by decide, ?_, by decide⟩
  rfl
/-! ## The longest common beginning of several candidates -/

theorem toupper_eq_NUL {c : Char} : toupper c = NUL ↔ c = NUL := ImToUpper_eq_NUL

theorem cstrAt_of_le (s : CStr) (m : Nat) (h : m ≤ s.length) :
    cstrAt s m = some (s.getD m NUL) := by
  unfold cstrAt
  rw [List.getD_eq_getElem?_getD]
  by_cases hlt : m < s.length
  · rw [List.getElem?_append_left hlt, List.getElem?_eq_getElem hlt]
    rfl
  · have hm : m = s.length := by omega
    subst hm
    rw [List.getElem?_append_right (le_refl _), List.getElem?_eq_none (le_refl _)]
    simp

theorem getD_ne_NUL_iff (s : CStr) (hs : ∀ c ∈ s, c ≠ NUL) (m : Nat) :
    s.getD m NUL ≠ NUL ↔ m < s.length := by
  rw [List.getD_eq_getElem?_getD]
  by_cases hlt : m < s.length
  · rw [List.getElem?_eq_getElem hlt]
    exact iff_of_true (hs _ (List.getElem_mem _)) hlt
  · rw [List.getElem?_eq_none (by omega)]
    exact iff_of_false (by simp) hlt

theorem take_succ_getD (s : CStr) (m : Nat) (h : m < s.length) :
    s.take (m + 1) = s.take m ++ [s.getD m NUL] := by
  rw [List.take_succ, List.getD_eq_getElem?_getD, List.getElem?_eq_getElem h]
  rfl

theorem allCandidatesMatch_rest (m : Nat) (c : Char) :
    ∀ tl : List CStr, (∀ d ∈ tl, m ≤ d.length) →
      ∃ b, allCandidatesMatch m tl false c = some b
        ∧ (b = true ↔ tl = [] ∨ (c ≠ NUL ∧ ∀ d ∈ tl, toupper (d.getD m NUL) = c)) := by
  intro tl
  induction tl with
  | nil => intro _; exact ⟨true, rfl, by simp⟩
  | cons d rest ih =>
    intro hlen
    rw [allCandidatesMatch]
    by_cases hc : c = NUL
    · rw [if_pos hc]
      exact ⟨false, rfl, by simp [hc]⟩
    · rw [if_neg hc, cstrAt_of_le d m (hlen d (List.mem_cons_self _ _))]
      simp only []
      by_cases hd : c ≠ toupper (d.getD m NUL)
      · rw [if_pos hd]
        refine ⟨false, rfl, ?_⟩
        simp only [Bool.false_eq_true, reduceCtorEq, List.mem_cons, forall_eq_or_imp, false_or,
          false_iff, not_and]
        intro _ h
        exact absurd h.symm hd
      · rw [if_neg hd]
        obtain ⟨b, hb, hiff⟩ := ih (fun x hx => hlen x (List.mem_cons_of_mem _ hx))
        refine ⟨b, hb, ?_⟩
        rw [hiff]
        have hd' : toupper (d.getD m NUL) = c := by
          by_contra h
          exact hd (fun h2 => h h2.symm)
        constructor
        · rintro (h | ⟨_, h⟩)
          · right
            refine ⟨hc, ?_⟩
            intro x hx
            rw [List.mem_cons] at hx
            rcases hx with rfl | hx
            · exact hd'
            · rw [h] at hx; cases hx
          · right
            refine ⟨hc, ?_⟩
            intro x hx
            rw [List.mem_cons] at hx
            rcases hx with rfl | hx
            · exact hd'
            · exact h x hx
        · rintro (h | ⟨_, h⟩)
          · cases h
          · by_cases hr : rest = []
            · left; exact hr
            · right; exact ⟨hc, fun x hx => h x (List.mem_cons_of_mem _ hx)⟩

theorem CommonUpTo_head (c0 : CStr) (tl : List CStr) (n : Nat) :
    CommonUpTo (c0 :: tl) n ↔
      ∀ d ∈ c0 :: tl, n ≤ d.length ∧ (d.take n).map toupper = (c0.take n).map toupper := by
  constructor
  · intro h d hd
    exact h d hd c0 (List.mem_cons_self _ _)
  · intro h c hc d hd
    exact ⟨(h c hc).1, (h c hc).2.trans (h d hd).2.symm⟩

theorem allCandidatesMatch_step (c0 c1 : CStr) (rest : List CStr) (m : Nat) (x : Char)
    (hnul : ∀ d ∈ c0 :: c1 :: rest, ∀ c ∈ d, c ≠ NUL)
    (hm : CommonUpTo (c0 :: c1 :: rest) m) :
    ∃ b, allCandidatesMatch m (c0 :: c1 :: rest) true x = some b
      ∧ (b = true ↔ CommonUpTo (c0 :: c1 :: rest) (m + 1)) := by
  rw [CommonUpTo_head] at hm
  have hlen : ∀ d ∈ c0 :: c1 :: rest, m ≤ d.length := fun d hd => (hm d hd).1
  rw [allCandidatesMatch, cstrAt_of_le c0 m (hlen c0 (List.mem_cons_self _ _))]
  simp only []
  obtain ⟨b, hb, hiff⟩ := allCandidatesMatch_rest m (toupper (c0.getD m NUL)) (c1 :: rest)
    (fun d hd => hlen d (List.mem_cons_of_mem _ hd))
  refine ⟨b, hb, ?_⟩
  rw [hiff, CommonUpTo_head]
  simp only [reduceCtorEq, false_or]
  have h0 := hnul c0 (List.mem_cons_self _ _)
  constructor
  · rintro ⟨hc, hall⟩
    have hlt0 : m < c0.length := by
      rw [← getD_ne_NUL_iff c0 h0 m]
      exact fun h => hc (toupper_eq_NUL.mpr h)
    intro d hd
    rw [List.mem_cons] at hd
    rcases hd with rfl | hd
    · exact ⟨hlt0, rfl⟩
    · have hdn := hnul d (List.mem_cons_of_mem _ hd)
      have hdu := hall d hd
      have hltd : m < d.length := by
        rw [← getD_ne_NUL_iff d hdn m]
        intro h
        rw [h] at hdu
        exact hc hdu.symm
      refine ⟨hltd, ?_⟩
      rw [take_succ_getD d m hltd, take_succ_getD c0 m hlt0, List.map_append, List.map_append,
        (hm d (List.mem_cons_of_mem _ hd)).2, List.map_singleton, List.map_singleton, hdu]
  · intro h
    have hlt0 : m < c0.length := (h c0 (List.mem_cons_self _ _)).1
    refine ⟨?_, ?_⟩
    · intro hc
      exact (getD_ne_NUL_iff c0 h0 m).mpr hlt0 (toupper_eq_NUL.mp hc)
    · intro d hd
      obtain ⟨hltd, he⟩ := h d (List.mem_cons_of_mem _ hd)
      rw [take_succ_getD d m hltd, take_succ_getD c0 m hlt0, List.map_append,
        List.map_append] at he
      have hl : ((d.take m).map toupper).length = ((c0.take m).map toupper).length := by
        simp only [List.length_map, List.length_take]
        omega
      have := (List.append_inj he hl).2
      rw [List.map_singleton, List.map_singleton] at this
      exact (List.cons.inj this).1

theorem matchLenLoop_spec (c0 c1 : CStr) (rest : List CStr)
    (hnul : ∀ d ∈ c0 :: c1 :: rest, ∀ c ∈ d, c ≠ NUL) :
    ∀ (fuel m : Nat), CommonUpTo (c0 :: c1 :: rest) m → c0.length - m < fuel →
      ∃ n, matchLenLoop (c0 :: c1 :: rest) fuel m = some n ∧ m ≤ n
        ∧ LongestCommonLen (c0 :: c1 :: rest) n := by
  intro fuel
  induction fuel with
  | zero => intro m _ h; omega
  | succ fuel ih =>
    intro m hm hfuel
    obtain ⟨b, hb, hiff⟩ := allCandidatesMatch_step c0 c1 rest m NUL hnul hm
    rw [matchLenLoop, hb]
    cases b with
    | false =>
      refine ⟨m, rfl, le_refl _, hm, ?_⟩
      intro h
      exact absurd (hiff.mpr h) (by simp)
    | true =>
      have hm1 := hiff.mp rfl
      have hlt : m + 1 ≤ c0.length :=
        (hm1 c0 (List.mem_cons_self _ _) c0 (List.mem_cons_self _ _)).1
      obtain ⟨n, hn, hle, hlong⟩ := ih (m + 1) hm1 (by omega)
      exact ⟨n, hn, by omega, hlong⟩

theorem CommonUpTo_mono (cands : List CStr) (n k : Nat) (h : CommonUpTo cands n) (hk : k ≤ n) :
    CommonUpTo cands k := by
  intro c hc d hd
  have := h c hc d hd
  refine ⟨by omega, ?_⟩
  have e : ∀ s : CStr, (s.take k).map toupper = ((s.take n).map toupper).take k := by
    intro s; rw [← List.map_take, List.take_take, Nat.min_eq_left hk]
  rw [e c, e d, this.2]

theorem LongestCommonLen_unique (cands : List CStr) (n k : Nat)
    (hn : LongestCommonLen cands n) (hk : LongestCommonLen cands k) : k = n := by
  rcases Nat.lt_trichotomy k n with h | h | h
  · exact absurd (CommonUpTo_mono cands n (k + 1) hn.1 h) hk.2
  · exact h
  · exact absurd (CommonUpTo_mono cands k (n + 1) hk.1 h) hn.2

theorem completion_of_several_candidates (con : Console)
    (data : ImGuiInputTextCallbackData) (ws : Nat) (cand0 cand1 : CStr) (rest : List CStr)
    (hflag : data.EventFlag = .CallbackCompletion)
    (hcur : data.CursorPos ≤ data.Buf.length) (hnul : ∀ c ∈ data.Buf, c ≠ NUL)
    (hcmds : ∀ cmd ∈ con.Commands, ∀ c ∈ cmd, c ≠ NUL)
    (hws : ws ≤ data.CursorPos)
    (hleft : ws = 0 ∨ isDelimiter (data.Buf.getD (ws - 1) NUL))
    (hword : ∀ i, ws ≤ i → i < data.CursorPos → ¬ isDelimiter (data.Buf.getD i NUL))
    (hmany : con.Commands.filter
        (fun cmd => ciStartsWith ((data.Buf.take data.CursorPos).drop ws) cmd)
        = cand0 :: cand1 :: rest) :
    ∃ n, LongestCommonLen (cand0 :: cand1 :: rest) n
        ∧ data.CursorPos - ws ≤ n
        ∧ ∀ fuel, cand0.length < fuel →
            ∃ data2, con.TextEditCallback fuel data
                = some (con.listCandidates (cand0 :: cand1 :: rest), data2)
              ∧ (data.Buf.length - (data.CursorPos - ws) + n < InputBuf_size →
                  data2 = { data with
                    Buf := data.Buf.take ws ++ cand0.take n ++ data.Buf.drop data.CursorPos,
                    CursorPos := ws + n })
              ∧ (0 < n → InputBuf_size ≤ data.Buf.length - (data.CursorPos - ws) + n →
                  data2 = { data with
                    Buf := data.Buf.take ws ++ data.Buf.drop data.CursorPos,
                    CursorPos := ws }) := by
  have hscan := scanWordStart_eq data.Buf data.CursorPos ws hws hleft hword
  have hcands := collectCandidates_eq con.Commands data.Buf ws data.CursorPos hws hcur hnul
  rw [hmany] at hcands
  have hmem : ∀ d ∈ cand0 :: cand1 :: rest,
      d ∈ con.Commands ∧ ciStartsWith ((data.Buf.take data.CursorPos).drop ws) d := by
    intro d hd
    rw [← hmany, List.mem_filter] at hd
    exact ⟨hd.1, of_decide_eq_true hd.2⟩
  have hwl : ((data.Buf.take data.CursorPos).drop ws).length = data.CursorPos - ws := by
    rw [List.length_drop, List.length_take]; omega
  have hinit : CommonUpTo (cand0 :: cand1 :: rest) (data.CursorPos - ws) := by
    intro c hc d hd
    obtain ⟨h1l, h1e⟩ := (hmem c hc).2
    obtain ⟨h2l, h2e⟩ := (hmem d hd).2
    rw [hwl] at h1l h1e h2e
    exact ⟨h1l, h1e.trans h2e.symm⟩
  have hcn : ∀ d ∈ cand0 :: cand1 :: rest, ∀ c ∈ d, c ≠ NUL := fun d hd =>
    hcmds d (hmem d hd).1
  obtain ⟨n, _, hle, hlong⟩ := matchLenLoop_spec cand0 cand1 rest hcn (cand0.length + 1)
    (data.CursorPos - ws) hinit (by omega)
  refine ⟨n, hlong, hle, ?_⟩
  intro fuel hfuel
  obtain ⟨n2, hloop, _, hlong2⟩ := matchLenLoop_spec cand0 cand1 rest hcn fuel
    (data.CursorPos - ws) hinit (by omega)
  have hn2 : n2 = n := LongestCommonLen_unique _ n n2 hlong hlong2
  subst hn2
  have hn0 : n2 ≤ cand0.length :=
    (hlong.1 cand0 (List.mem_cons_self _ _) cand0 (List.mem_cons_self _ _)).1
  rw [TextEditCallback_of_completion_flag fuel con data hflag]
  unfold Console.completionEvent
  simp only []
  rw [hscan, hcands]
  simp only []
  rw [hloop]
  simp only []
  refine ⟨_, rfl, ?_, ?_⟩
  · intro hfit
    by_cases hpos : n2 > 0
    · rw [if_pos hpos, replaceWord data ws _ hws hcur
        (by rw [List.length_take, Nat.min_eq_left hn0]; omega),
        List.length_take, Nat.min_eq_left hn0]
    · rw [if_neg hpos]
      have hz : n2 = 0 := by omega
      have hwz : ws = data.CursorPos := by omega
      subst hz
      rw [hwz]
      simp
  · intro hpos hfull
    have hlen := DeleteChars_word_BufTextLen data ws hws hcur
    unfold ImGuiInputTextCallbackData.BufTextLen at hlen
    rw [if_pos hpos, InsertChars_of_no_fit _ _ _
      (by rw [hlen, List.length_take, Nat.min_eq_left hn0]; omega),
      DeleteChars_word data ws hws]

theorem fmt_left32_ne_nil (c : CStr) : fmt_left32 c ≠ [] := by
  unfold fmt_left32
  intro h
  have := congrArg List.length h
  rw [List.length_append, List.length_replicate] at this
  simp only [List.length_nil] at this
  omega

theorem listCandidates_eq_flush (con : Console) (cands : List CStr) :
    con.listCandidates cands
      = flushListing (listCandidatesLoop cands 0 []
          (con.AddLog "info".toList "Possible matches:\n".toList)) := rfl

theorem listCandidatesLoop_groups (cands : List CStr) :
    ∀ (k : Nat) (con : Console),
      flushListing (listCandidatesLoop cands (3 * k) [] con)
        = (groupsOf3 cands).foldl
            (fun (c : Console) (g : List CStr) =>
              c.AddLog "info".toList
                ((g.map fun c => c ++ List.replicate (32 - c.length) ' ').flatten
                  ++ "\n".toList))
            con := by
  induction cands using groupsOf3.induct with
  | case1 a b c rest ih =>
    intro k con
    have h1 : ¬ (3 * k ≠ 0 ∧ (3 * k + 1) % 3 = 0) := by omega
    have h2 : ¬ (3 * k + 1 ≠ 0 ∧ (3 * k + 1 + 1) % 3 = 0) := by omega
    have h3 : 3 * k + 1 + 1 ≠ 0 ∧ (3 * k + 1 + 1 + 1) % 3 = 0 := by omega
    rw [listCandidatesLoop, if_neg h1, listCandidatesLoop, if_neg h2, listCandidatesLoop,
      if_pos h3]
    have e : 3 * k + 1 + 1 + 1 = 3 * (k + 1) := by omega
    rw [e, ih (k + 1), groupsOf3, List.foldl_cons]
    simp [fmt_left32, List.append_assoc]
  | case2 =>
    intro k con
    rfl
  | case3 a =>
    intro k con
    have h1 : ¬ (3 * k ≠ 0 ∧ (3 * k + 1) % 3 = 0) := by omega
    rw [listCandidatesLoop, if_neg h1, listCandidatesLoop, flushListing]
    simp only [List.nil_append]
    rw [if_pos (fmt_left32_ne_nil a), groupsOf3, List.foldl_cons, List.foldl_nil]
    simp [fmt_left32]
  | case4 a b =>
    intro k con
    have h1 : ¬ (3 * k ≠ 0 ∧ (3 * k + 1) % 3 = 0) := by omega
    have h2 : ¬ (3 * k + 1 ≠ 0 ∧ (3 * k + 1 + 1) % 3 = 0) := by omega
    rw [listCandidatesLoop, if_neg h1, listCandidatesLoop, if_neg h2, listCandidatesLoop,
      flushListing]
    simp only [List.nil_append]
    have hne : fmt_left32 a ++ fmt_left32 b ≠ [] := by
      intro h
      exact fmt_left32_ne_nil a (List.append_eq_nil.mp h).1
    rw [if_pos hne, groupsOf3, List.foldl_cons, List.foldl_nil]
    simp [fmt_left32, List.append_assoc]

theorem listCandidates_Items (con : Console) (cands : List CStr) :
    (con.listCandidates cands).Items
      = logTail con.LogLimit (con.Items
          ++ { Str := "Possible matches:\n".toList, Lev := "info".toList }
            :: (groupsOf3 cands).map listingLine) := by
  rw [listCandidates_eq_flush]
  have h := listCandidatesLoop_groups cands 0
    (con.AddLog "info".toList "Possible matches:\n".toList)
  rw [Nat.mul_zero] at h
  rw [h, foldl_AddLog_Items_of_logTail (fun _ => "info".toList) _ _ _
    (con.Items ++ [{ Str := "Possible matches:\n".toList, Lev := "info".toList }])
    (by rw [AddLog_eq]; rfl)]
  rw [(SameButLog.addLog con _ _).logLimit, List.append_assoc]
  rfl

theorem groupsOf3_flatten (cands : List CStr) : (groupsOf3 cands).flatten = cands := by
  induction cands using groupsOf3.induct with
  | case1 a b c rest ih => rw [groupsOf3, List.flatten_cons, ih]; rfl
  | case2 => rfl
  | case3 a => rfl
  | case4 a b => rfl

theorem groupsOf3_length (cands : List CStr) :
    (groupsOf3 cands).length = (cands.length + 2) / 3 := by
  induction cands using groupsOf3.induct with
  | case1 a b c rest ih =>
    rw [groupsOf3, List.length_cons, ih]
    simp only [List.length_cons]
    omega
  | case2 => rfl
  | case3 a => simp [groupsOf3]
  | case4 a b => simp [groupsOf3]

theorem groupsOf3_sizes (cands : List CStr) :
    (∀ g ∈ groupsOf3 cands, 1 ≤ g.length ∧ g.length ≤ 3)
      ∧ ∀ g ∈ (groupsOf3 cands).dropLast, g.length = 3 := by
  induction cands using groupsOf3.induct with
  | case1 a b c rest ih =>
    rw [groupsOf3]
    constructor
    · intro g hg
      rw [List.mem_cons] at hg
      rcases hg with rfl | hg
      · simp
      · exact ih.1 g hg
    · intro g hg
      cases hr : groupsOf3 rest with
      | nil => rw [hr] at hg; simp at hg
      | cons x xs =>
        rw [hr, List.dropLast_cons₂, List.mem_cons] at hg
        rcases hg with rfl | hg
        · rfl
        · exact ih.2 g (by rw [hr]; exact hg)
  | case2 => simp [groupsOf3]
  | case3 a => simp [groupsOf3]
  | case4 a b => simp [groupsOf3]

/-- C10 (amended): on every console whose log capacity is not negative, for
every tab-completion with two or more matching candidates the log receives the header `Possible matches:` and then the full candidate list in matching
order, cut into ceil(n/3) lines with three candidates on every line except
possibly the last (which holds one to three); on a line every candidate is
written left aligned and filled with spaces on its right up to a column of 32
characters, a name longer than 32 characters being written whole, and the line
ends with a newline (and is cut to the 1023 characters of the log formatter);
the log keeps of all this what its capacity allows (`logTail`). -/
theorem C10_candidates_listed_three_per_line (con : Console)
    (data : ImGuiInputTextCallbackData) (ws : Nat) (cand0 cand1 : CStr) (rest : List CStr)
    (_hcap : 0 ≤ con.LogLimit)
    (hflag : data.EventFlag = .CallbackCompletion)
    (hcur : data.CursorPos ≤ data.Buf.length) (hnul : ∀ c ∈ data.Buf, c ≠ NUL)
    (hcmds : ∀ cmd ∈ con.Commands, ∀ c ∈ cmd, c ≠ NUL)
    (hws : ws ≤ data.CursorPos)
    (hleft : ws = 0 ∨ isDelimiter (data.Buf.getD (ws - 1) NUL))
    (hword : ∀ i, ws ≤ i → i < data.CursorPos → ¬ isDelimiter (data.Buf.getD i NUL))
    (hmany : con.Commands.filter
        (fun cmd => ciStartsWith ((data.Buf.take data.CursorPos).drop ws) cmd)
        = cand0 :: cand1 :: rest) :
    ∃ groups : List (List CStr),
      groups.flatten = cand0 :: cand1 :: rest
        ∧ groups.length = ((cand0 :: cand1 :: rest).length + 2) / 3
        ∧ (∀ g ∈ groups, 1 ≤ g.length ∧ g.length ≤ 3)
        ∧ (∀ g ∈ groups.dropLast, g.length = 3)
        ∧ ∀ fuel, cand0.length < fuel →
            ∃ con2 data2, con.TextEditCallback fuel data = some (con2, data2)
              ∧ con2.Items
                  = logTail con.LogLimit (con.Items
                      ++ { Str := "Possible matches:\n".toList, Lev := "info".toList }
                        :: groups.map listingLine) := by
  obtain ⟨n, _, _, hrun⟩ := completion_of_several_candidates con data ws cand0 cand1 rest
    hflag hcur hnul hcmds hws hleft hword hmany
  refine ⟨groupsOf3 (cand0 :: cand1 :: rest), groupsOf3_flatten _, groupsOf3_length _,
    (groupsOf3_sizes _).1, (groupsOf3_sizes _).2, ?_⟩
  intro fuel hfuel
  obtain ⟨data2, h1, _, _⟩ := hrun fuel hfuel
  exact ⟨_, data2, h1, listCandidates_Items con _⟩

/-- C10 at a concrete input: Tab on the empty buffer matches all nine commands
of the sample console, which are listed on three lines of three. -/
theorem C10_candidates_listed_witness :
    0 ≤ sampleConsole.LogLimit
      ∧ (tabAt [] 0).EventFlag = .CallbackCompletion
      ∧ (∀ cmd ∈ sampleConsole.Commands, ∀ c ∈ cmd, c ≠ NUL)
      ∧ sampleConsole.Commands.filter
          (fun cmd => ciStartsWith (((tabAt [] 0).Buf.take 0).drop 0) cmd)
          = "HELP".toList :: "CLEAR".toList
              :: ["HISTORY".toList, "mute".toList, "mute-all".toList, "set".toList,
                  "seek".toList, "select".toList, "quit".toList]
      ∧ ∃ groups : List (List CStr),
          groups.flatten = "HELP".toList :: "CLEAR".toList
              :: ["HISTORY".toList, "mute".toList, "mute-all".toList, "set".toList,
                  "seek".toList, "select".toList, "quit".toList]
            ∧ groups.length = 3
            ∧ ∀ fuel, 4 < fuel →
                ∃ con2 data2, sampleConsole.TextEditCallback fuel (tabAt [] 0)
                    = some (con2, data2)
                  ∧ con2.Items
                      = logTail sampleConsole.LogLimit (sampleConsole.Items
                          ++ { Str := "Possible matches:\n".toList, Lev := "info".toList }
                            :: groups.map listingLine) := by
  refine ⟨by decide, rfl, by decide, by decide, ?_⟩
  obtain ⟨groups, h1, h2, _, _, h5⟩ :=
    C10_candidates_listed_three_per_line sampleConsole (tabAt [] 0) 0
      "HELP".toList "CLEAR".toList
      ["HISTORY".toList, "mute".toList, "mute-all".toList, "set".toList,
       "seek".toList, "select".toList, "quit".toList]
      (by decide) rfl (by decide) (by decide) (by decide) (by decide) (Or.inl rfl)
      (fun i _ h2 => by
        have h2' : i < 0 := h2
        omega)
      (by decide)
  exact ⟨groups, h1, h2, h5⟩

/-- C10 as stated fails on the padding. For the buffer `mu` the listing line is
`mute`, 28 spaces, `mute-all`, 24 spaces, newline: the names are padded on
their right, and the line differs from the one with the names padded on the
left (`leftPad32`). And two matching names of 36 characters are written one
right after the other, each taking 36 columns, not the fixed 32. -/
theorem C10_counterexample :
    ((sampleConsole.TextEditCallback 9 (tabAt "mu".toList 2)).map (fun r => r.1.Items)
        = some [{ Str := "Possible matches:\n".toList, Lev := "info".toList },
                { Str := "mute".toList ++ List.replicate 28 ' ' ++ "mute-all".toList
                    ++ List.replicate 24 ' ' ++ "\n".toList,
                  Lev := "info".toList }]
      ∧ "mute".toList ++ List.replicate 28 ' ' ++ "mute-all".toList
            ++ List.replicate 24 ' ' ++ "\n".toList
          ≠ leftPad32 "mute".toList ++ leftPad32 "mute-all".toList ++ "\n".toList)
    ∧ ((longNamesConsole.TextEditCallback 40 (tabAt "script".toList 6)).map
          (fun r => r.1.Items)
        = some [{ Str := "Possible matches:\n".toList, Lev := "info".toList },
                { Str := "script-message-to-everyone-at-once-1".toList
                    ++ "script-message-to-everyone-at-once-2".toList ++ "\n".toList,
                  Lev := "info".toList }]
      ∧ "script-message-to-everyone-at-once-1".toList.length ≠ 32) := by
  decide

/-! ## Titles of the bindings list -/

theorem drawBindings_title_eq (binding : Binding) :
    drawBindings_title binding
      = if (if binding.comment.isEmpty then binding.cmd else binding.comment).length < 50
        then (if binding.comment.isEmpty then binding.cmd else binding.comment)
        else (if binding.comment.isEmpty then binding.cmd else binding.comment).take 50
          ++ "...".toList := by
  unfold drawBindings_title
  simp only []
  generalize (if binding.comment.isEmpty then binding.cmd else binding.comment) = source
  by_cases h : source.length < 50
  · rw [if_pos h, List.take_of_length_le (by omega), if_neg (by omega)]
  · rw [if_neg h, if_pos (by rw [List.length_take]; omega)]

/-- C13, what the code does: the title is made from the comment, or from the
command text when the comment is empty; a source text of fewer than 50
characters is the title as it is, a source text of 50 characters or more gives
its first 50 characters followed by `...`, and no title is longer than 53
characters. A source text of exactly 50 characters therefore gets the ellipsis
although nothing was cut from it: for the comment
`Seek forward by five seconds and show the position` the title is that text
followed by `...`, not the text itself. -/
theorem C13_title_of_fifty_characters_gets_ellipsis (binding : Binding) :
    drawBindings_title binding
        = (if (if binding.comment.isEmpty then binding.cmd else binding.comment).length < 50
           then (if binding.comment.isEmpty then binding.cmd else binding.comment)
           else (if binding.comment.isEmpty then binding.cmd else binding.comment).take 50
             ++ "...".toList)
      ∧ (drawBindings_title binding).length ≤ 53
      ∧ "Seek forward by five seconds and show the position".toList.length = 50
      ∧ drawBindings_title
            (bindingOfComment "Seek forward by five seconds and show the position".toList
              "seek 5".toList)
          = "Seek forward by five seconds and show the position...".toList
      ∧ drawBindings_title
            (bindingOfComment "Seek forward by five seconds and show the position".toList
              "seek 5".toList)
          ≠ "Seek forward by five seconds and show the position".toList
      ∧ drawBindings_title (bindingOfCmd "Seek forward by five seconds and show the position".toList)
          = "Seek forward by five seconds and show the position...".toList := by
  refine ⟨drawBindings_title_eq binding, ?_, by decide, by decide, by decide, by decide⟩
  rw [drawBindings_title_eq]
  generalize (if binding.comment.isEmpty then binding.cmd else binding.comment) = source
  split
  · omega
  · rw [List.length_append, List.length_take]
    have : "...".toList.length = 3 := rfl
    omega

/-! ## The property tree renderer -/

theorem fmt_int64_eq_toString (i : Int) : String.mk (fmt_int64 i) = toString i := by
  cases i with
  | ofNat m =>
    simp [fmt_int64]
    rfl
  | negSucc m =>
    simp [fmt_int64, Int.negSucc_lt_zero]
    rfl

theorem openedAt_singleton_self (p : List CStr) : openedAt [p] p = some true := by
  simp [openedAt]

theorem openedAt_singleton_longer (p : List CStr) (label : CStr) :
    openedAt [p] (p ++ [label]) = none := by
  have h : p ++ [label] ≠ p := by
    intro h
    have := congrArg List.length h
    rw [List.length_append, List.length_singleton] at this
    omega
  simp [openedAt, h]

/-- C12: the value text of a row is computed by a total function of the value;
it is `<Empty>` (dimmed) for an absent value, the string's own content for a
string or OSD string, written in the normal value colour and not replaced by a
placeholder, `yes` or `no` for a flag, the decimal numeral for an integer (the
text `toString` gives), the fmt rendering for a double, `byte array [<length>]`
for a byte array, and the dimmed `<Unavailable>` for every other format tag and
for an array or map handed to `drawSimple`. For an array holding one map
holding one string, drawn with the array opened, the innermost row shows the
entry's key and that string. -/
theorem C12_value_text_of_a_row (fmt_double : Nat → CStr) :
    drawSimple_value fmt_double .none = ("<Empty>".toList, .TextDisabled)
      ∧ (∀ s, drawSimple_value fmt_double (.string s) = (s, .CheckMark))
      ∧ (∀ s, drawSimple_value fmt_double (.osd_string s) = (s, .CheckMark))
      ∧ drawSimple_value fmt_double (.flag true) = ("yes".toList, .CheckMark)
      ∧ drawSimple_value fmt_double (.flag false) = ("no".toList, .CheckMark)
      ∧ (∀ i, drawSimple_value fmt_double (.int64 i) = (fmt_int64 i, .CheckMark)
          ∧ String.mk (fmt_int64 i) = toString i)
      ∧ (∀ bits, drawSimple_value fmt_double (.double bits) = (fmt_double bits, .CheckMark))
      ∧ (∀ size, drawSimple_value fmt_double (.byte_array size)
          = ("byte array [".toList ++ (toString size).toList ++ "]".toList, .CheckMark))
      ∧ (∀ format, drawSimple_value fmt_double (.other format)
          = ("<Unavailable>".toList, .TextDisabled))
      ∧ (∀ values, drawSimple_value fmt_double (.node_array values)
          = ("<Unavailable>".toList, .TextDisabled))
      ∧ (∀ entries, drawSimple_value fmt_double (.node_map entries)
          = ("<Unavailable>".toList, .TextDisabled))
      ∧ (∀ (storage : ImGuiStorage) (path : List CStr) (name : CStr) (s : CStr) (depth : Nat),
          drawPropNode fmt_double storage path name (.string s) depth
            = .simple name s .CheckMark)
      ∧ (∀ (name key s : CStr),
          drawProperty fmt_double (openedAt [[name ++ " [1]".toList]]) name
              (.node_array [.node_map [(key, .string s)]])
            = .treeNode (name ++ " [1]".toList) false true
                [.treeNode "#0 (1)".toList true true [.simple key s .CheckMark]]) := by
  refine ⟨rfl, fun _ => rfl, fun _ => rfl, rfl, rfl, fun i => ⟨rfl, fmt_int64_eq_toString i⟩,
    fun _ => rfl, fun _ => rfl, fun _ => rfl, fun _ => rfl, fun _ => rfl,
    fun _ _ _ _ _ => rfl, ?_⟩
  intro name key s
  have hl : name ++ " [".toList ++ Nat.toDigits 10 [mpv_node.node_map [(key, .string s)]].length
      ++ "]".toList = name ++ " [1]".toList := by
    rw [List.append_assoc, List.append_assoc]
    have h : " [".toList ++ (Nat.toDigits 10
        [mpv_node.node_map [(key, mpv_node.string s)]].length ++ "]".toList)
        = " [1]".toList := by
      rw [List.length_singleton]
      rfl
    rw [h]
  have h1 : TreeNode (openedAt [[name ++ " [1]".toList]]) [] (name ++ " [1]".toList) false
      = true := by
    unfold TreeNode
    rw [List.nil_append, openedAt_singleton_self]
  have h2 : TreeNode (openedAt [[name ++ " [1]".toList]]) [name ++ " [1]".toList]
      "#0 (1)".toList true = true := by
    unfold TreeNode
    rw [openedAt_singleton_longer]
  unfold drawProperty
  rw [drawPropNode, hl, h1, if_pos rfl, List.nil_append, drawArrayItems, drawArrayItems,
    drawPropNode]
  have hl2 : "#".toList ++ Nat.toDigits 10 0 ++ " (".toList
      ++ Nat.toDigits 10 [(key, mpv_node.string s)].length ++ ")".toList = "#0 (1)".toList := by
    rw [List.length_singleton]
    rfl
  have hd : decide (0 + 1 > 0) = true := rfl
  rw [hl2, hd, h2, if_pos rfl]
  rfl

/-- C11, what the code does: a map node is preceded by
`SetNextItemOpen(true, ImGuiCond_Once)` exactly when it is drawn with
`depth > 0`, an array node never is, and a node the toolkit has no remembered
state for is open exactly when that request was made. The elements of an array
are drawn with `depth + 1`, but the entries of a map are drawn with the default
`depth = 0`. So a map that is an element of an array starts expanded and a
top-level map or array starts collapsed, but a map that is an entry of another
map starts collapsed too: for the value `{a: {b: x}}` drawn with the outer node
opened by the user, the inner map `a` is not requested open and is closed,
while for `[{b: x}]` with the array opened the inner map is requested open and
is open. -/
theorem C11_map_inside_map_starts_collapsed (fmt_double : Nat → CStr) :
    (∀ (storage : ImGuiStorage) (path : List CStr) (name : CStr)
        (entries : List (CStr × mpv_node)) (depth : Nat),
        ∃ label is_open children,
          drawPropNode fmt_double storage path name (.node_map entries) depth
            = .treeNode label (decide (depth > 0)) is_open children
          ∧ is_open = (storage (path ++ [label])).getD (decide (depth > 0)))
      ∧ (∀ (storage : ImGuiStorage) (path : List CStr) (name : CStr)
          (values : List mpv_node) (depth : Nat),
          ∃ label is_open children,
            drawPropNode fmt_double storage path name (.node_array values) depth
              = .treeNode label false is_open children
            ∧ is_open = (storage (path ++ [label])).getD false)
      ∧ (∀ (storage : ImGuiStorage) (path : List CStr) (value : mpv_node)
          (values : List mpv_node) (i depth : Nat),
          drawArrayItems fmt_double storage path (value :: values) i depth
            = drawPropNode fmt_double storage path ("#".toList ++ Nat.toDigits 10 i) value depth
                :: drawArrayItems fmt_double storage path values (i + 1) depth)
      ∧ (∀ (storage : ImGuiStorage) (path : List CStr) (key : CStr) (value : mpv_node)
          (entries : List (CStr × mpv_node)),
          drawMapItems fmt_double storage path ((key, value) :: entries)
            = drawPropNode fmt_double storage path key value 0
                :: drawMapItems fmt_double storage path entries)
      ∧ drawProperty fmt_double (openedAt [["p (1)".toList]]) "p".toList
            (.node_map [("a".toList, .node_map [("b".toList, .string "x".toList)])])
          = .treeNode "p (1)".toList false true [.treeNode "a (1)".toList false false []]
      ∧ drawProperty fmt_double (openedAt [["p [1]".toList]]) "p".toList
            (.node_array [.node_map [("b".toList, .string "x".toList)]])
          = .treeNode "p [1]".toList false true
              [.treeNode "#0 (1)".toList true true [.simple "b".toList "x".toList .CheckMark]]
      ∧ drawProperty fmt_double freshStorage "p".toList
            (.node_map [("a".toList, .node_map [("b".toList, .string "x".toList)])])
          = .treeNode "p (1)".toList false false []
      ∧ drawProperty fmt_double freshStorage "p".toList
            (.node_array [.node_map [("b".toList, .string "x".toList)]])
          = .treeNode "p [1]".toList false false [] := by
  refine ⟨?_, ?_, fun _ _ _ _ _ _ => rfl, fun _ _ _ _ _ => rfl, rfl, rfl, rfl, rfl⟩
  · intro storage path name entries depth
    refine ⟨_, _, _, by rw [drawPropNode], ?_⟩
    unfold TreeNode
    cases storage (path ++ [_]) <;> rfl
  · intro storage path name values depth
    refine ⟨_, _, _, by rw [drawPropNode], ?_⟩
    unfold TreeNode
    cases storage (path ++ [_]) <;> rfl

/-! ## Termination of the longest-common-beginning loop -/

theorem cstrAt_isSome_of_le (s : CStr) (k : Nat) (h : k ≤ s.length) :
    ∃ ch, cstrAt s k = some ch :=
  ⟨_, cstrAt_of_le s k h⟩

/-- C14: for every typed word and every list of two or more candidates that
the candidate collection accepts for it (`ImStrnicmp` over the length of the
word gives 0; the names may repeat or differ in case), there is a match length
`n` that the `for (;;)` loop returns for every fuel above the number of
characters the first candidate has beyond the word, so the loop ends after at
most that many iterations plus one; `n` is at least the length of the word and
at most the length of every candidate, hence of the shortest; and every offset
up to `n`, the only ones the loop reads, lies inside each candidate or on its
terminator. -/
theorem C14_common_prefix_loop_terminates (word after : CStr) (cand0 cand1 : CStr)
    (rest : List CStr)
    (hword : ∀ c ∈ word, c ≠ NUL)
    (hnul : ∀ d ∈ cand0 :: cand1 :: rest, ∀ c ∈ d, c ≠ NUL)
    (hmatch : ∀ d ∈ cand0 :: cand1 :: rest, ImStrnicmp d (word ++ after) word.length = 0) :
    ∃ n, (∀ fuel, cand0.length - word.length < fuel →
            matchLenLoop (cand0 :: cand1 :: rest) fuel word.length = some n)
      ∧ word.length ≤ n
      ∧ (∀ d ∈ cand0 :: cand1 :: rest, n ≤ d.length)
      ∧ (∀ d ∈ cand0 :: cand1 :: rest, ∀ k, k ≤ n → ∃ ch, cstrAt d k = some ch) := by
  have hinit : CommonUpTo (cand0 :: cand1 :: rest) word.length := by
    intro c hc d hd
    obtain ⟨h1l, h1e⟩ := (ImStrnicmp_eq_zero_iff word hword c after).mp (hmatch c hc)
    obtain ⟨_, h2e⟩ := (ImStrnicmp_eq_zero_iff word hword d after).mp (hmatch d hd)
    exact ⟨h1l, h1e.trans h2e.symm⟩
  obtain ⟨n, _, hle, hlong⟩ := matchLenLoop_spec cand0 cand1 rest hnul
    (cand0.length - word.length + 1) word.length hinit (by omega)
  have hlen : ∀ d ∈ cand0 :: cand1 :: rest, n ≤ d.length := fun d hd =>
    (hlong.1 d hd d hd).1
  refine ⟨n, ?_, hle, hlen, fun d hd k hk => cstrAt_isSome_of_le d k (by
    have := hlen d hd
    omega)⟩
  intro fuel hfuel
  obtain ⟨n2, hloop, _, hlong2⟩ := matchLenLoop_spec cand0 cand1 rest hnul fuel
    word.length hinit hfuel
  rw [hloop, LongestCommonLen_unique _ n n2 hlong hlong2]

/-- C14 at a concrete input: for the typed word `mu` and the candidates `Mute`,
`mute`, `MUTE-all` (a repeated name in two spellings) the loop returns 4 with
fuel 3, the length of the shortest candidate. -/
theorem C14_common_prefix_loop_witness :
    (∀ c ∈ "mu".toList, c ≠ NUL)
      ∧ (∀ d ∈ ["Mute".toList, "mute".toList, "MUTE-all".toList], ∀ c ∈ d, c ≠ NUL)
      ∧ (∀ d ∈ ["Mute".toList, "mute".toList, "MUTE-all".toList],
          ImStrnicmp d ("mu".toList ++ " 1".toList) "mu".toList.length = 0)
      ∧ matchLenLoop ["Mute".toList, "mute".toList, "MUTE-all".toList] 3 2 = some 4
      ∧ ∃ n, (∀ fuel, "Mute".toList.length - "mu".toList.length < fuel →
              matchLenLoop ["Mute".toList, "mute".toList, "MUTE-all".toList] fuel
                "mu".toList.length = some n)
          ∧ "mu".toList.length ≤ n
          ∧ (∀ d ∈ ["Mute".toList, "mute".toList, "MUTE-all".toList], n ≤ d.length)
          ∧ (∀ d ∈ ["Mute".toList, "mute".toList, "MUTE-all".toList], ∀ k, k ≤ n →
              ∃ ch, cstrAt d k = some ch) :=
  ⟨by decide, by decide, by decide, by decide,
   C14_common_prefix_loop_terminates "mu".toList " 1".toList "Mute".toList "mute".toList
     ["MUTE-all".toList] (by decide) (by decide) (by decide)⟩

end Debug
